import Mathlib

/-!
# Verification of the gh-aca-utils line-classification and adapter-toggle core

Shallow embedding of the core text-processing functions of `src/cmd/main.go`
(package `cmd` of greenstevester/gh-aca-utils).  Strings are modelled as
`List Char` (Go strings are UTF-8; all byte-level index accesses in the source
touch only ASCII characters, where bytes and runes coincide, as noted at each
definition).  The regular expressions `kvRe`, `ipv4`, `ipv6` and `portRe` are
embedded as explicit character-class scanners / backtracking matchers that
follow Go's documented leftmost-first match semantics.
-/

set_option autoImplicit false

/-- Characters matched by the Go regexp class `\s` (RE2 Perl class):
exactly `[\t\n\f\r ]`. -/
def isReSpace (c : Char) : Bool :=
  c = '\t' || c = '\n' || c = '\x0c' || c = '\r' || c = ' '

/-- Characters trimmed by Go `strings.TrimSpace` (`unicode.IsSpace`):
`\t \n \v \f \r space U+0085 U+00A0` plus the Unicode `Zs`-class code points
U+1680, U+2000–U+200A, U+2028, U+2029, U+202F, U+205F, U+3000. -/
def isGoSpace (c : Char) : Bool :=
  let n := c.toNat
  n = 9 || n = 10 || n = 11 || n = 12 || n = 13 || n = 32 ||
  n = 0x85 || n = 0xA0 || n = 0x1680 || (0x2000 ≤ n && n ≤ 0x200A) ||
  n = 0x2028 || n = 0x2029 || n = 0x202F || n = 0x205F || n = 0x3000

/-- Drop matching characters from the right end of a list. -/
def trimEndBy (p : Char → Bool) (l : List Char) : List Char :=
  (l.reverse.dropWhile p).reverse

/-- Trim matching characters from both ends. -/
def trimBy (p : Char → Bool) (l : List Char) : List Char :=
  trimEndBy p (l.dropWhile p)

/-- Model of Go `strings.TrimSpace`. -/
def trimGo (l : List Char) : List Char := trimBy isGoSpace l

/-- Trim by the regexp whitespace class `\s` (used to express what the
`\s*(.+?)\s*$` tail of `kvRe` captures). -/
def trimRe (l : List Char) : List Char := trimBy isReSpace l

/-- Decimal digit `[0-9]`. -/
def isDigitCh (c : Char) : Bool := '0' ≤ c && c ≤ '9'

/-- The key character class of `kvRe` and `portRe`: `[A-Za-z0-9_.\-]`. -/
def isKeyChar (c : Char) : Bool :=
  ('A' ≤ c && c ≤ 'Z') || ('a' ≤ c && c ≤ 'z') || isDigitCh c ||
  c = '_' || c = '.' || c = '-'

/-- Regexp word character (for `\b`): `[0-9A-Za-z_]`. -/
def isWordCh (c : Char) : Bool :=
  isDigitCh c || ('a' ≤ c && c ≤ 'z') || ('A' ≤ c && c ≤ 'Z') || c = '_'

/-- Hex digit `[0-9a-f]` under the `(?i)` flag of the `ipv6` regexp. -/
def isHexCh (c : Char) : Bool :=
  isDigitCh c || ('a' ≤ c && c ≤ 'f') || ('A' ≤ c && c ≤ 'F')

/-- ASCII lowercasing of one character; model of Go `strings.ToLower` per rune.
(Go lowercases by full Unicode tables; restricted to the question "does the
lowercased key contain the ASCII word `port`" the ASCII mapping is equivalent,
since `p`,`o`,`r`,`t` arise as simple lowercase images only of `P`,`O`,`R`,`T`.) -/
def lowerCh (c : Char) : Char :=
  if 'A' ≤ c && c ≤ 'Z' then Char.ofNat (c.toNat + 32) else c

/-- Model of Go `strings.ToLower`. -/
def toLowerStr (l : List Char) : List Char := l.map lowerCh

/-- Does `hay` start with `needle`? (helper for `hasSubstr`). -/
def leadMatch : List Char → List Char → Bool
  | [], _ => true
  | _ :: _, [] => false
  | a :: as, b :: bs => a = b && leadMatch as bs

/-- Model of Go `strings.Contains hay needle`. -/
def hasSubstr : List Char → List Char → Bool
  | hay, needle =>
    leadMatch needle hay ||
    match hay with
    | [] => false
    | _ :: t => hasSubstr t needle

/-- Model of `stripQuotes` (main.go:734): `TrimSpace`, then if the result has
length ≥ 2 and is wrapped in a matching pair of single or double quotes, remove
exactly that one layer.  (Go indexes bytes `s[0]`/`s[len(s)-1]`; the quote
characters are ASCII and UTF-8 continuation bytes are ≥ 0x80, so the byte test
succeeds exactly when the first/last characters are the quotes.) -/
def stripQuotes (s : List Char) : List Char :=
  let t := trimGo s
  if 2 ≤ t.length &&
     ((t.headD ' ' = '\'' && t.getLastD ' ' = '\'') ||
      (t.headD ' ' = '"' && t.getLastD ' ' = '"')) then
    (t.drop 1).dropLast
  else t

/-- Model of `isCommentOrBlank` (main.go:693): trimmed line is empty or starts
with `#` or `;`. -/
def isCommentOrBlank (line : List Char) : Bool :=
  let t := trimGo line
  t.isEmpty || t.headD ' ' = '#' || t.headD ' ' = ';'

/-- Model of `parseKV` (main.go:685), i.e. of
`kvRe = ^\s*([A-Za-z0-9_.\-]+)\s*[:=]\s*(.+?)\s*$` followed by
`strings.TrimSpace` on the second capture.  The regex is anchored, and the key
class, `\s` and `[:=]` are pairwise disjoint, so the prefix part matches
deterministically: maximal `\s` run, maximal nonempty key run, maximal `\s`
run, then one `:` or `=`.  For the tail over the remainder `r`:
`(.+?)` needs at least one character and `.` matches everything except `\n`,
so a match exists iff `r` is nonempty and either its `\s`-trimmed core is
free of `\n` (the capture is then that core) or the core is empty and `r`
contains some non-`\n` character (the capture is then a single whitespace
character).  In both cases `TrimSpace` of the capture equals `TrimSpace r`
(the regexp `\s` class is a subset of Go's `TrimSpace` set). -/
def parseKV (line : List Char) : Option (List Char × List Char) :=
  let l1 := line.dropWhile isReSpace
  let key := l1.takeWhile isKeyChar
  let l2 := (l1.dropWhile isKeyChar).dropWhile isReSpace
  if key.isEmpty then none
  else
    match l2 with
    | [] => none
    | c :: r =>
      if c = ':' || c = '=' then
        if r.isEmpty then none
        else
          let rt := trimRe r
          if (if rt.isEmpty then r.any (fun x => x != '\n')
              else !(rt.contains '\n')) then
            some (key, trimGo r)
          else none
      else none

/-- Model of `looksLikePort` (main.go:718): lowercased key must contain
`port`; the quote-stripped value must have length 2–5 and be all digits.
(Go measures `len(vv)` in bytes; an all-digit value is ASCII so byte and
rune length agree, and any non-ASCII value fails the digit loop as well as
possibly the length test, so both models return `false` together.) -/
def looksLikePort (k v : List Char) : Bool :=
  if !(hasSubstr (toLowerStr k) ("port".toList)) then false
  else
    let vv := stripQuotes v
    if vv.length < 2 || vv.length > 5 then false
    else vv.all isDigitCh

/-!
## Backtracking matcher combinators

`Cand` is a (consumed, rest) pair; a matcher returns its candidate matches in
the preference order of a backtracking engine, which is the order Go's
`regexp` documents for submatch selection (leftmost, then as a backtracking
search starting at the beginning of the expression would find).
-/

/-- One candidate: characters consumed so far, and the remaining input. -/
abbrev Cand := List Char × List Char

/-- Match one character satisfying `p`. -/
def mChr (p : Char → Bool) : List Char → List Cand
  | [] => []
  | c :: r => if p c then [([c], r)] else []

/-- Sequencing of matchers, candidates in backtracking order. -/
def mSeq (m1 m2 : List Char → List Cand) (l : List Char) : List Cand :=
  (m1 l).flatMap fun p => (m2 p.2).map fun q => (p.1 ++ q.1, q.2)

/-- Ordered alternation `m1|m2`. -/
def mAlt (m1 m2 : List Char → List Cand) (l : List Char) : List Cand :=
  m1 l ++ m2 l

/-- Greedy option `m?` (prefers the match to be present). -/
def mOpt (m : List Char → List Cand) (l : List Char) : List Cand :=
  m l ++ [([], l)]

/-- Greedy counted repetition `m{a,b}`: a backtracking engine prefers taking
one more repetition (up to `b`) over stopping (allowed once at most `a = 0`
repetitions remain requested). -/
def mRep (a b : Nat) (m : List Char → List Cand) : List Char → List Cand :=
  match b with
  | 0 => fun l => if a = 0 then [([], l)] else []
  | b' + 1 => fun l =>
      mSeq m (mRep (a - 1) b' m) l ++ (if a = 0 then [([], l)] else [])

/-- Greedy star over a single character class: the candidates are exactly the
prefixes of the maximal run, longest first. -/
def mStar (p : Char → Bool) (l : List Char) : List Cand :=
  (List.range ((l.takeWhile p).length + 1)).reverse.map
    fun k => (l.take k, l.drop k)

/-- Word-boundary `\b` between two (optional) adjacent characters:
exactly one side is a word character. -/
def isBoundary (x y : Option Char) : Bool :=
  (match x with | none => false | some c => isWordCh c) !=
  (match y with | none => false | some c => isWordCh c)

/-!
## The `ipv4` regexp (main.go:462)

`\b((25[0-5]|2[0-4][0-9]|[01]?[0-9]?[0-9])\.){3}(25[0-5]|2[0-4][0-9]|[01]?[0-9]?[0-9])\b`
-/

/-- The octet alternation `25[0-5]|2[0-4][0-9]|[01]?[0-9]?[0-9]`. -/
def octet : List Char → List Cand :=
  mAlt (mSeq (mChr (· = '2')) (mSeq (mChr (· = '5'))
          (mChr (fun c => '0' ≤ c && c ≤ '5'))))
  (mAlt (mSeq (mChr (· = '2')) (mSeq (mChr (fun c => '0' ≤ c && c ≤ '4'))
          (mChr isDigitCh)))
        (mSeq (mOpt (mChr (fun c => c = '0' || c = '1')))
          (mSeq (mOpt (mChr isDigitCh)) (mChr isDigitCh))))

/-- Body of the `ipv4` regexp without the surrounding `\b`s. -/
def ipv4Body : List Char → List Cand :=
  mSeq (mRep 3 3 (mSeq octet (mChr (· = '.')))) octet

/-- Leftmost-first `ipv4.FindString` search: at each start position (tracking
the previous character for `\b`), take the first candidate whose tail `\b`
holds; otherwise advance. -/
def ipv4FindFrom (prev : Option Char) : List Char → Option (List Char)
  | [] => none
  | c :: r =>
    match (if isBoundary prev (some c) then
             ((ipv4Body (c :: r)).find?
               fun p => isBoundary p.1.getLast? p.2.head?).map Prod.fst
           else none) with
    | some m => some m
    | none => ipv4FindFrom (some c) r

/-- Model of `ipv4.FindString` (empty result modelled as `none`). -/
def ipv4Find (l : List Char) : Option (List Char) := ipv4FindFrom none l

/-!
## The `ipv6` regexp (main.go:464)

`(?i)(?:(?:[0-9a-f]{1,4}:){7}[0-9a-f]{1,4}|(?:[0-9a-f]{1,4}:){1,6}::[0-9a-f]{1,4}|(?:[0-9a-f]{1,4}:){1,5}(?::[0-9a-f]{1,4}){1,2}|(?:[0-9a-f]{1,4}:){1,4}(?::[0-9a-f]{1,4}){1,3}|(?:[0-9a-f]{1,4}:){1,3}(?::[0-9a-f]{1,4}){1,4}|(?:[0-9a-f]{1,4}:){1,2}(?::[0-9a-f]{1,4}){1,5}|[0-9a-f]{1,4}:(?::[0-9a-f]{1,4}){1,6}|:(?::[0-9a-f]{1,4}){1,7}|(?:[0-9a-f]{1,4}:){1,7}:|::1|::)`
-/

/-- `[0-9a-f]{1,4}` (case-insensitive). -/
def h16 : List Char → List Cand := mRep 1 4 (mChr isHexCh)

/-- A literal `:`. -/
def colonM : List Char → List Cand := mChr (· = ':')

/-- The group `(?:[0-9a-f]{1,4}:)`. -/
def h16c : List Char → List Cand := mSeq h16 colonM

/-- The group `(?::[0-9a-f]{1,4})`. -/
def ch16 : List Char → List Cand := mSeq colonM h16

/-- Body of the `ipv6` regexp: the eleven alternatives in source order. -/
def ipv6Body : List Char → List Cand :=
  mAlt (mSeq (mRep 7 7 h16c) h16)
  (mAlt (mSeq (mRep 1 6 h16c) (mSeq colonM (mSeq colonM h16)))
  (mAlt (mSeq (mRep 1 5 h16c) (mRep 1 2 ch16))
  (mAlt (mSeq (mRep 1 4 h16c) (mRep 1 3 ch16))
  (mAlt (mSeq (mRep 1 3 h16c) (mRep 1 4 ch16))
  (mAlt (mSeq (mRep 1 2 h16c) (mRep 1 5 ch16))
  (mAlt (mSeq h16c (mRep 1 6 ch16))
  (mAlt (mSeq colonM (mRep 1 7 ch16))
  (mAlt (mSeq (mRep 1 7 h16c) colonM)
  (mAlt (mSeq colonM (mSeq colonM (mChr (· = '1'))))
        (mSeq colonM colonM))))))))))

/-- Leftmost-first `ipv6.FindString` search (the regexp has no `\b`). -/
def ipv6FindFrom : List Char → Option (List Char)
  | [] => none
  | c :: r =>
    match (ipv6Body (c :: r)).head? with
    | some p => some p.1
    | none => ipv6FindFrom r

/-- Model of `ipv6.FindString`. -/
def ipv6Find (l : List Char) : Option (List Char) := ipv6FindFrom l

/-- Model of `looksLikeIP` (main.go:698): strip quotes, then
`ipv4.MatchString || ipv6.MatchString` (a regexp matches iff its find
succeeds, as none of the patterns can match the empty string). -/
def looksLikeIP (s : List Char) : Bool :=
  let ss := stripQuotes s
  (ipv4Find ss).isSome || (ipv6Find ss).isSome

/-- Model of `firstIP` (main.go:703): the IPv4 find if nonempty, else the
IPv6 find (`""` for no match is modelled as `[]`). -/
def firstIP (s : List Char) : List Char :=
  match ipv4Find s with
  | some m => m
  | none => (ipv6Find s).getD []

/-!
## The `portRe` regexp (main.go:466)

`(?i)\b([A-Za-z0-9_.\-]*port[A-Za-z0-9_.\-]*)\s*[:=\s]\s*["']?([0-9]{2,5})["']?\b`
-/

/-- The literal `port` under `(?i)`. -/
def portCI : List Char → List Cand :=
  mSeq (mChr (fun c => lowerCh c = 'p'))
  (mSeq (mChr (fun c => lowerCh c = 'o'))
  (mSeq (mChr (fun c => lowerCh c = 'r')) (mChr (fun c => lowerCh c = 't'))))

/-- All candidate (key capture, digits capture, rest) triples of `portRe`
starting at the head of `l`, in backtracking preference order; the trailing
`\b` is checked against the last consumed character (the closing quote if
present, else the last digit). -/
def portAt (l : List Char) : List (List Char × List Char × List Char) :=
  (mStar isKeyChar l).flatMap fun g1a =>
  (portCI g1a.2).flatMap fun pp =>
  (mStar isKeyChar pp.2).flatMap fun g1b =>
  (mStar isReSpace g1b.2).flatMap fun w1 =>
  (mChr (fun c => c = ':' || c = '=' || isReSpace c) w1.2).flatMap fun s1 =>
  (mStar isReSpace s1.2).flatMap fun w2 =>
  (mOpt (mChr (fun c => c = '"' || c = '\'')) w2.2).flatMap fun q1 =>
  (mRep 2 5 (mChr isDigitCh) q1.2).flatMap fun dd =>
  (mOpt (mChr (fun c => c = '"' || c = '\'')) dd.2).flatMap fun q2 =>
  let lastC := match q2.1.getLast? with
               | some c => c
               | none => dd.1.getLastD '0'
  if isBoundary (some lastC) q2.2.head? then
    [(g1a.1 ++ pp.1 ++ g1b.1, dd.1, q2.2)]
  else []

/-- Leftmost-first `portRe.FindStringSubmatch` search; every candidate at a
given start consumes the head character first (the key capture together with
the literal `port` is always nonempty), so the leading `\b` test is uniform
per position. -/
def portFindFrom (prev : Option Char) : List Char → Option (List Char × List Char)
  | [] => none
  | c :: r =>
    match (if isBoundary prev (some c) then
             (portAt (c :: r)).head?.map fun t => (t.1, t.2.1)
           else none) with
    | some kv => some kv
    | none => portFindFrom (some c) r

/-- Model of `findInlinePort` (main.go:710). -/
def findInlinePort (line : List Char) : Option (List Char × List Char) :=
  portFindFrom none line

/-!
## Scan engine (per-file part of `scanForIPPort`, main.go:524–556)

File walking, glob selection and path bookkeeping are out of the modelled
core (spec §2 external collaborators); the model takes the file's lines (as
produced by `bufio.Scanner`, which never contain `\n`) and omits the constant
`RelPath` field of `matchRow`.
-/

/-- One finding of the scan; model of `matchRow` without the path column. -/
structure MatchRecord where
  ipKey : List Char
  ipValue : List Char
  portKey : List Char
  portValue : List Char
  lineNumber : Nat
  deriving DecidableEq, Repr

/-- The four value fields computed for one non-blank line, mirroring
main.go:533–549: on a `kvRe` match, test the value with `looksLikeIP` and the
(key, value) pair with `looksLikePort`; otherwise fall back to `firstIP` and
`findInlinePort` on the raw line. -/
def scanLineFields (line : List Char) :
    List Char × List Char × List Char × List Char :=
  match parseKV line with
  | some (k, v) =>
    let ip := if looksLikeIP v then (k, stripQuotes v) else ([], [])
    let pt := if looksLikePort k v then (k, stripQuotes v) else ([], [])
    (ip.1, ip.2, pt.1, pt.2)
  | none =>
    let ipVal := firstIP line
    match findInlinePort line with
    | some (pk, pv) => ([], ipVal, pk, pv)
    | none => ([], ipVal, [], [])

/-- The scan loop over a file's lines with 1-based line numbers
(main.go:526–554): blank-after-trim lines are skipped, and a record is
appended iff one of the four fields is non-empty. -/
def scanFileAux (n : Nat) : List (List Char) → List MatchRecord
  | [] => []
  | line :: rest =>
    let tail := scanFileAux (n + 1) rest
    if trimGo line = [] then tail
    else
      let f := scanLineFields line
      if f.1 = [] ∧ f.2.1 = [] ∧ f.2.2.1 = [] ∧ f.2.2.2 = [] then tail
      else ⟨f.1, f.2.1, f.2.2.1, f.2.2.2, n⟩ :: tail

/-- Scan of one file's lines; model of the per-file body of `scanForIPPort`. -/
def scanFileRows (lines : List (List Char)) : List MatchRecord :=
  scanFileAux 1 lines

/-!
## Adapter toggle engine (`cmdFlipAdapters` RunE core, main.go:160–215)

The model covers the pure state transition: split the file into lines,
index last occurrences of parsed keys, then for each requested adapter flip
`0↔1` or record a skip.  The constant `FilePath` field of `change` and the
file/git I/O around the core are outside the model; the two
`fmt.Fprintf(os.Stderr, "warning: ...")` paths are modelled as skip records
`(key, reason)` with the reasons `"not found"` and `"non-binary value"`.
-/

/-- Model of the `change` struct (main.go:39) without the constant path. -/
structure ChangeRec where
  adapter : List Char
  oldValue : List Char
  newValue : List Char
  deriving DecidableEq, Repr

/-- State threaded through the toggle loop. -/
structure TState where
  lines : List (List Char)
  changes : List ChangeRec
  skips : List (List Char × List Char)
  deriving DecidableEq, Repr

/-- The index-building loop (main.go:164–175): walk the lines with their
indices; skip comment/blank lines; on a `parseKV` match overwrite the map
entry for the key with the current index (later occurrences win, exactly as
reassignment into the Go map `m`). -/
def buildIndexAux (m : List Char → Option Nat) (i : Nat) :
    List (List Char) → (List Char → Option Nat)
  | [] => m
  | line :: rest =>
    let m' := if isCommentOrBlank line then m
              else match parseKV line with
                   | none => m
                   | some (k, _) => fun q => if q = k then some i else m q
    buildIndexAux m' (i + 1) rest

/-- The adapter → line-index map of `cmdFlipAdapters`. -/
def buildIndex (lines : List (List Char)) : List Char → Option Nat :=
  buildIndexAux (fun _ => none) 0 lines

/-- One iteration of the toggle loop (main.go:177–196) for adapter `a`:
no index entry → skip `not found`; else re-parse the (possibly already
rewritten) line, trim its value, flip `0↔1` rewriting the line as
`key=newValue`, or skip `non-binary value`.  Go's
`k, v, _ := parseKV(lines[idx])` ignores the ok flag, yielding `"", ""` on a
failed parse, modelled by `getD`. -/
def toggleStep (m : List Char → Option Nat) (st : TState) (a : List Char) :
    TState :=
  match m a with
  | none => { st with skips := st.skips ++ [(a, "not found".toList)] }
  | some idx =>
    let kv := (parseKV (st.lines.getD idx [])).getD ([], [])
    let tv := trimGo kv.2
    if tv = "0".toList then
      { st with lines := st.lines.set idx (kv.1 ++ '=' :: "1".toList),
                changes := st.changes ++ [⟨kv.1, tv, "1".toList⟩] }
    else if tv = "1".toList then
      { st with lines := st.lines.set idx (kv.1 ++ '=' :: "0".toList),
                changes := st.changes ++ [⟨kv.1, tv, "0".toList⟩] }
    else
      { st with skips := st.skips ++ [(kv.1, "non-binary value".toList)] }

/-- The toggle loop over the requested adapters. -/
def flipLoop (m : List Char → Option Nat) : TState → List (List Char) → TState
  | st, [] => st
  | st, a :: rest => flipLoop m (toggleStep m st a) rest

/-- The full toggle state transition of `cmdFlipAdapters` on one file's
lines. -/
def flipAdapters (lines : List (List Char)) (want : List (List Char)) :
    TState :=
  flipLoop (buildIndex lines) ⟨lines, [], []⟩ want

/-- Model of `strings.Split(content, "\n")` (main.go:160). -/
def splitNl : List Char → List (List Char)
  | [] => [[]]
  | c :: r =>
    if c = '\n' then [] :: splitNl r
    else
      match splitNl r with
      | [] => [[c]]
      | h :: t => (c :: h) :: t

/-- Model of `strings.Join(lines, "\n")` (main.go:213). -/
def joinNl : List (List Char) → List Char
  | [] => []
  | [x] => x
  | x :: y :: t => x ++ '\n' :: joinNl (y :: t)

/-- The key of a line as the toggle indexer sees it: `none` for
comment/blank or unparsable lines. -/
def lineKey (line : List Char) : Option (List Char) :=
  if isCommentOrBlank line then none else (parseKV line).map Prod.fst

/-- The current (trimmed) value the toggle engine would read for a key. -/
def currentValue (lines : List (List Char)) (k : List Char) :
    Option (List Char) :=
  (buildIndex lines k).bind fun i =>
    (parseKV (lines.getD i [])).map fun p => trimGo p.2

/-- Decimal value of a digit string (for stating octet validity). -/
def decVal (l : List Char) : Nat := l.foldl (fun n c => 10 * n + (c.toNat - 48)) 0

/-- Index of the last line whose `lineKey` is `q` (specification view of the
index map built by `cmdFlipAdapters`). -/
def lastValidIdx (q : List Char) : List (List Char) → Option Nat
  | [] => none
  | line :: rest =>
    match lastValidIdx q rest with
    | some t => some (t + 1)
    | none => if lineKey line = some q then some 0 else none

/-- The invariant relating the index map to the current line buffer: every
indexed key still parses to itself at its indexed line. -/
def IndexInv (m : List Char → Option Nat) (L : List (List Char)) : Prop :=
  ∀ b idx, m b = some idx →
    idx < L.length ∧ ∃ v, parseKV (L.getD idx []) = some (b, v)

/-- The shape of a successfully toggled line: the original parsed as
`(k, v)` with binary trimmed value, and the output is exactly
`k=<flipped>`. -/
def flippedLine (orig out : List Char) : Prop :=
  ∃ k v, parseKV orig = some (k, v) ∧
    ((trimGo v = "0".toList ∧ out = k ++ '=' :: "1".toList) ∨
     (trimGo v = "1".toList ∧ out = k ++ '=' :: "0".toList))

/-- The record the scan emits for line `line` at line number `n`. -/
abbrev scanLineRec (n : Nat) (line : List Char) : MatchRecord :=
  ⟨(scanLineFields line).1, (scanLineFields line).2.1,
   (scanLineFields line).2.2.1, (scanLineFields line).2.2.2, n⟩

/-- All four computed fields of a line are empty. -/
abbrev fieldsEmpty (line : List Char) : Prop :=
  (scanLineFields line).1 = [] ∧ (scanLineFields line).2.1 = [] ∧
  (scanLineFields line).2.2.1 = [] ∧ (scanLineFields line).2.2.2 = []

/-!
## Character-class arithmetic
-/

theorem charNat_le {a b : Char} : a ≤ b ↔ a.toNat ≤ b.toNat :=
  ⟨fun h => h, fun h => h⟩

theorem charNat_eq {a b : Char} : a = b ↔ a.toNat = b.toNat := by
  rw [Char.ext_iff, UInt32.ext_iff]
  exact Iff.rfl

theorem isKeyChar_iff (c : Char) : isKeyChar c = true ↔
    (65 ≤ c.toNat ∧ c.toNat ≤ 90) ∨ (97 ≤ c.toNat ∧ c.toNat ≤ 122) ∨
    (48 ≤ c.toNat ∧ c.toNat ≤ 57) ∨ c.toNat = 95 ∨ c.toNat = 46 ∨
    c.toNat = 45 := by
  simp only [isKeyChar, isDigitCh, Bool.or_eq_true, Bool.and_eq_true,
    decide_eq_true_eq, charNat_le, charNat_eq,
    (show ('A' : Char).toNat = 65 from rfl), (show ('Z' : Char).toNat = 90 from rfl),
    (show ('a' : Char).toNat = 97 from rfl), (show ('z' : Char).toNat = 122 from rfl),
    (show ('0' : Char).toNat = 48 from rfl), (show ('9' : Char).toNat = 57 from rfl),
    (show ('_' : Char).toNat = 95 from rfl), (show ('.' : Char).toNat = 46 from rfl),
    (show ('-' : Char).toNat = 45 from rfl)]
  tauto

theorem isReSpace_iff (c : Char) : isReSpace c = true ↔
    c.toNat = 9 ∨ c.toNat = 10 ∨ c.toNat = 12 ∨ c.toNat = 13 ∨
    c.toNat = 32 := by
  simp only [isReSpace, Bool.or_eq_true, decide_eq_true_eq, charNat_eq,
    (show ('\t' : Char).toNat = 9 from rfl), (show ('\n' : Char).toNat = 10 from rfl),
    (show ('\x0c' : Char).toNat = 12 from rfl), (show ('\r' : Char).toNat = 13 from rfl),
    (show (' ' : Char).toNat = 32 from rfl)]
  tauto

theorem isGoSpace_iff (c : Char) : isGoSpace c = true ↔
    c.toNat = 9 ∨ c.toNat = 10 ∨ c.toNat = 11 ∨ c.toNat = 12 ∨ c.toNat = 13 ∨
    c.toNat = 32 ∨ c.toNat = 0x85 ∨ c.toNat = 0xA0 ∨ c.toNat = 0x1680 ∨
    (0x2000 ≤ c.toNat ∧ c.toNat ≤ 0x200A) ∨ c.toNat = 0x2028 ∨
    c.toNat = 0x2029 ∨ c.toNat = 0x202F ∨ c.toNat = 0x205F ∨
    c.toNat = 0x3000 := by
  simp only [isGoSpace, Bool.or_eq_true, Bool.and_eq_true, decide_eq_true_eq]
  tauto

theorem isDigitCh_iff (c : Char) : isDigitCh c = true ↔
    48 ≤ c.toNat ∧ c.toNat ≤ 57 := by
  simp only [isDigitCh, Bool.and_eq_true, decide_eq_true_eq, charNat_le,
    (show ('0' : Char).toNat = 48 from rfl), (show ('9' : Char).toNat = 57 from rfl)]

theorem keyChar_not_goSpace {c : Char} (h : isKeyChar c = true) :
    isGoSpace c = false := by
  rw [isKeyChar_iff] at h
  rw [Bool.eq_false_iff, ne_eq, isGoSpace_iff]
  omega

theorem keyChar_not_reSpace {c : Char} (h : isKeyChar c = true) :
    isReSpace c = false := by
  rw [isKeyChar_iff] at h
  rw [Bool.eq_false_iff, ne_eq, isReSpace_iff]
  omega

theorem reSpace_goSpace {c : Char} (h : isReSpace c = true) :
    isGoSpace c = true := by
  rw [isReSpace_iff] at h
  rw [isGoSpace_iff]
  omega

theorem keyChar_ne_hash_semi {c : Char} (h : isKeyChar c = true) :
    c ≠ '#' ∧ c ≠ ';' := by
  rw [isKeyChar_iff] at h
  simp only [ne_eq, charNat_eq, (show ('#' : Char).toNat = 35 from rfl),
    (show (';' : Char).toNat = 59 from rfl)]
  omega

theorem digit_not_goSpace {c : Char} (h : isDigitCh c = true) :
    isGoSpace c = false := by
  rw [isDigitCh_iff] at h
  rw [Bool.eq_false_iff, ne_eq, isGoSpace_iff]
  omega

theorem digit_not_reSpace {c : Char} (h : isDigitCh c = true) :
    isReSpace c = false := by
  rw [isDigitCh_iff] at h
  rw [Bool.eq_false_iff, ne_eq, isReSpace_iff]
  omega

theorem digit_ne_nl {c : Char} (h : isDigitCh c = true) : c ≠ '\n' := by
  rw [isDigitCh_iff] at h
  simp only [ne_eq, charNat_eq, (show ('\n' : Char).toNat = 10 from rfl)]
  omega

/-!
## Trimming lemmas
-/

theorem trimEndBy_front (p : Char → Bool) (l : List Char) :
    trimEndBy p l <+: l := by
  have h : List.dropWhile p l.reverse <:+ l.reverse := List.dropWhile_suffix p
  have h2 := List.reverse_prefix.mpr h
  simpa [trimEndBy] using h2

theorem trimEndBy_eq_nil_iff {p : Char → Bool} {l : List Char} :
    trimEndBy p l = [] ↔ ∀ x ∈ l, p x = true := by
  rw [trimEndBy, List.reverse_eq_nil_iff, List.dropWhile_eq_nil_iff]
  constructor
  · intro h x hx
    exact h x (List.mem_reverse.mpr hx)
  · intro h x hx
    exact h x (List.mem_reverse.mp hx)

theorem trimEndBy_head {p : Char → Bool} {c : Char} {l : List Char}
    (h : trimEndBy p (c :: l) ≠ []) :
    ∃ t, trimEndBy p (c :: l) = c :: t := by
  have hpre := trimEndBy_front p (c :: l)
  match hm : trimEndBy p (c :: l) with
  | [] => exact absurd hm h
  | d :: t =>
    rw [hm] at hpre
    obtain ⟨s, hs⟩ := hpre
    cases hs
    exact ⟨t, rfl⟩

theorem trimEndBy_getLast_not {p : Char → Bool} {l : List Char}
    (h : trimEndBy p l ≠ []) :
    ∃ c t, trimEndBy p l = t ++ [c] ∧ p c = false := by
  have hrev : (l.reverse.dropWhile p) ≠ [] := by
    intro hnil
    apply h
    rw [trimEndBy, hnil, List.reverse_nil]
  have hp := List.head_dropWhile_not p l.reverse hrev
  refine ⟨(l.reverse.dropWhile p).head hrev,
    ((l.reverse.dropWhile p).tail).reverse, ?_, hp⟩
  rw [trimEndBy]
  conv_lhs => rw [← List.head_cons_tail _ hrev]
  rw [List.reverse_cons]

theorem dropWhile_append_all {p : Char → Bool} {l1 l2 : List Char}
    (h : ∀ x ∈ l1, p x = true) :
    (l1 ++ l2).dropWhile p = l2.dropWhile p := by
  induction l1 with
  | nil => rfl
  | cons c t ih =>
    rw [List.cons_append, List.dropWhile_cons, h c (List.mem_cons_self c t)]
    exact ih fun x hx => h x (List.mem_cons_of_mem _ hx)

theorem takeWhile_append_all {p : Char → Bool} {l1 l2 : List Char}
    (h : ∀ x ∈ l1, p x = true) :
    (l1 ++ l2).takeWhile p = l1 ++ l2.takeWhile p := by
  induction l1 with
  | nil => rfl
  | cons c t ih =>
    rw [List.cons_append, List.takeWhile_cons, h c (List.mem_cons_self c t),
      if_pos rfl, ih fun x hx => h x (List.mem_cons_of_mem _ hx),
      List.cons_append]

theorem contains_eq_false_iff {l : List Char} {c : Char} :
    l.contains c = false ↔ c ∉ l := by
  simp

theorem parseKV_inv {l k v : List Char} (h : parseKV l = some (k, v)) :
    k = (l.dropWhile isReSpace).takeWhile isKeyChar ∧ k ≠ [] ∧
    ∃ c r, ((l.dropWhile isReSpace).dropWhile isKeyChar).dropWhile isReSpace
        = c :: r ∧ (c = ':' ∨ c = '=') ∧ r ≠ [] ∧ v = trimGo r := by
  simp only [parseKV] at h
  by_cases hkey : ((l.dropWhile isReSpace).takeWhile isKeyChar).isEmpty = true
  · rw [if_pos hkey] at h
    exact absurd h (by simp)
  rw [if_neg hkey] at h
  rcases hl2 : ((l.dropWhile isReSpace).dropWhile isKeyChar).dropWhile isReSpace
    with _ | ⟨c, r⟩ <;> rw [hl2] at h <;> dsimp only at h
  · exact absurd h (by simp)
  by_cases hsep : (decide (c = ':') || decide (c = '=')) = true
  swap
  · rw [if_neg (by simpa using hsep)] at h
    exact absurd h (by simp)
  rw [if_pos (by simpa using hsep)] at h
  by_cases hr : r.isEmpty = true
  · rw [if_pos hr] at h
    exact absurd h (by simp)
  rw [if_neg hr] at h
  by_cases hc : (if (trimRe r).isEmpty = true then r.any fun x => x != '\n'
      else !(trimRe r).contains '\n') = true
  swap
  · rw [if_neg hc] at h
    exact absurd h (by simp)
  rw [if_pos hc] at h
  injection h with h2
  obtain ⟨hk, hv⟩ := Prod.mk.injEq _ _ _ _ ▸ h2
  refine ⟨hk.symm, fun hne => hkey (by rw [hk, hne]; rfl), c, r, rfl,
    by simpa using hsep, fun hne => hr (by rw [hne]; rfl), hv.symm⟩

theorem dropWhile_all_false {p : Char → Bool} {l : List Char}
    (h : ∀ x ∈ l, p x = false) : l.dropWhile p = l := by
  cases l with
  | nil => rfl
  | cons c t => rw [List.dropWhile_cons, h c (List.mem_cons_self c t)]; simp

theorem trimEndBy_all_false {p : Char → Bool} {l : List Char}
    (h : ∀ x ∈ l, p x = false) : trimEndBy p l = l := by
  rw [trimEndBy, dropWhile_all_false fun x hx => h x (List.mem_reverse.mp hx),
    List.reverse_reverse]

theorem trimBy_all_false {p : Char → Bool} {l : List Char}
    (h : ∀ x ∈ l, p x = false) : trimBy p l = l := by
  rw [trimBy, dropWhile_all_false h, trimEndBy_all_false h]

theorem parseKV_key_chars {l k v : List Char} (h : parseKV l = some (k, v)) :
    k ≠ [] ∧ ∀ c ∈ k, isKeyChar c = true := by
  obtain ⟨hk, hkne, -⟩ := parseKV_inv h
  exact ⟨hkne, fun c hc => List.mem_takeWhile_imp (hk ▸ hc)⟩

/-- Round-trip: a rewritten line `key=value` with a well-formed key and a
nonempty all-digit value parses back to exactly that pair. -/
theorem parseKV_mk {k v : List Char} (hkne : k ≠ [])
    (hkc : ∀ c ∈ k, isKeyChar c = true) (hvne : v ≠ [])
    (hvd : ∀ c ∈ v, isDigitCh c = true) :
    parseKV (k ++ '=' :: v) = some (k, v) := by
  have hdrop1 : (k ++ '=' :: v).dropWhile isReSpace = k ++ '=' :: v := by
    apply dropWhile_all_false
    intro x hx
    rcases List.mem_append.mp hx with hx | hx
    · exact keyChar_not_reSpace (hkc x hx)
    · rcases List.mem_cons.mp hx with rfl | hx
      · decide
      · exact digit_not_reSpace (hvd x hx)
  have htake : (k ++ '=' :: v).takeWhile isKeyChar = k := by
    rw [takeWhile_append_all hkc, List.takeWhile_cons, if_neg (by decide),
      List.append_nil]
  have hdropk : (k ++ '=' :: v).dropWhile isKeyChar = '=' :: v := by
    rw [dropWhile_append_all hkc, List.dropWhile_cons, if_neg (by decide)]
  have hne : ('=' :: v).dropWhile isReSpace = '=' :: v := by
    rw [List.dropWhile_cons, if_neg (by decide)]
  have hrt : trimRe v = v :=
    trimBy_all_false fun x hx => digit_not_reSpace (hvd x hx)
  have htg : trimGo v = v :=
    trimBy_all_false fun x hx => digit_not_goSpace (hvd x hx)
  simp only [parseKV, hdrop1, htake, hdropk, hne, hrt, htg]
  rw [if_neg (by simp [List.isEmpty_iff, hkne])]
  rw [if_pos (by simp), if_neg (by simp [List.isEmpty_iff, hvne])]
  rw [if_pos (by
    rw [if_neg (by simp [List.isEmpty_iff, hvne])]
    simp only [Bool.not_eq_true, Bool.not_eq_true', contains_eq_false_iff]
    intro hmem
    exact absurd rfl (digit_ne_nl (hvd _ hmem)))]


/-- Core of claim C3: a comment-or-blank line never parses as a key/value
pair. -/
theorem parseKV_none_of_commentOrBlank {l : List Char}
    (h : isCommentOrBlank l = true) : parseKV l = none := by
  rcases hp : parseKV l with _ | ⟨⟨k, v⟩⟩
  · rfl
  exfalso
  obtain ⟨hk, hkne, -⟩ := parseKV_inv hp
  have hl1 : ∃ c t, l.dropWhile isReSpace = c :: t ∧ isKeyChar c = true := by
    rcases hd : l.dropWhile isReSpace with _ | ⟨c, t⟩
    · rw [hd] at hk
      exact absurd hk (by simpa using hkne)
    · rw [hd, List.takeWhile_cons] at hk
      by_cases hc : isKeyChar c = true
      · exact ⟨c, t, rfl, hc⟩
      · rw [if_neg hc] at hk
        exact absurd hk hkne
  obtain ⟨c, t, hd, hc⟩ := hl1
  have hsplit : l = l.takeWhile isReSpace ++ (c :: t) := by
    conv_lhs => rw [← List.takeWhile_append_dropWhile isReSpace l]
    rw [hd]
  have hgo : l.dropWhile isGoSpace = c :: t := by
    conv_lhs => rw [hsplit]
    rw [dropWhile_append_all
      (fun x hx => reSpace_goSpace (List.mem_takeWhile_imp hx)),
      List.dropWhile_cons, if_neg (by simp [keyChar_not_goSpace hc])]
  have htrim : trimGo l = trimEndBy isGoSpace (c :: t) := by
    rw [trimGo, trimBy, hgo]
  have hnonempty : trimEndBy isGoSpace (c :: t) ≠ [] := by
    intro hnil
    have h2 := trimEndBy_eq_nil_iff.mp hnil c (List.mem_cons_self c t)
    rw [keyChar_not_goSpace hc] at h2
    exact Bool.false_ne_true h2
  obtain ⟨t', ht'⟩ := trimEndBy_head hnonempty
  simp only [isCommentOrBlank, htrim, ht', List.isEmpty_cons, List.headD_cons,
    Bool.or_eq_true, decide_eq_true_eq] at h
  rcases h with (h | h) | h
  · exact Bool.false_ne_true h
  · exact (keyChar_ne_hash_semi hc).1 h
  · exact (keyChar_ne_hash_semi hc).2 h

/-- C3, stated over claim C3's `classify`: comment-or-blank implies
`matched = false` (the classifier is `parseKV`; `none` is `matched=false`). -/
theorem commentOrBlank_not_matched (l : List Char)
    (h : isCommentOrBlank l = true) : parseKV l = none :=
  parseKV_none_of_commentOrBlank h

/-- Witness for `commentOrBlank_not_matched` at the spec's own example
`"#key=value"`, a line that does look like `key=value` after the comment
marker. -/
theorem commentOrBlank_not_matched_witness :
    isCommentOrBlank ("#key=value".toList) = true ∧
    parseKV ("#key=value".toList) = none :=
  ⟨by decide, commentOrBlank_not_matched ("#key=value".toList) (by decide)⟩

/-!
## Port and IP heuristic claims
-/


theorem cv0 : ('0' : Char).toNat = 48 := rfl
theorem cv1 : ('1' : Char).toNat = 49 := rfl
theorem cv2 : ('2' : Char).toNat = 50 := rfl
theorem cv4 : ('4' : Char).toNat = 52 := rfl
theorem cv5 : ('5' : Char).toNat = 53 := rfl
theorem cv9 : ('9' : Char).toNat = 57 := rfl

theorem mChr_nil (p : Char → Bool) : mChr p [] = [] := rfl

theorem mChr_cons (p : Char → Bool) (c : Char) (r : List Char) :
    mChr p (c :: r) = if p c then [([c], r)] else [] := rfl

set_option maxHeartbeats 1000000 in
/-- The octet alternation of the `ipv4` regexp consumes an entire string
exactly when that string is a 1–3 digit decimal numeral of value ≤ 255. -/
theorem octet_accepts_iff (l : List Char) :
    ((octet l).any fun p => p.2.isEmpty) = true ↔
    (l ≠ [] ∧ l.length ≤ 3 ∧ (∀ c ∈ l, isDigitCh c = true) ∧
      decVal l ≤ 255) := by
  match l with
  | [] => simp [octet, mAlt, mSeq, mOpt, mChr_nil]
  | [a] =>
    simp only [octet, mAlt, mSeq, mOpt, mChr_cons, mChr_nil]
    split_ifs
    all_goals simp_all [decVal, mChr_cons, mChr_nil]
    all_goals simp_all [isDigitCh_iff, charNat_eq, charNat_le, cv0, cv1, cv2,
      cv4, cv5, cv9, and_assoc, exists_and_left, mChr_cons, mChr_nil]
    all_goals omega
  | [a, b] =>
    simp only [octet, mAlt, mSeq, mOpt, mChr_cons, mChr_nil]
    split_ifs
    all_goals simp_all [decVal, mChr_cons, mChr_nil]
    all_goals simp_all [isDigitCh_iff, charNat_eq, charNat_le, cv0, cv1, cv2,
      cv4, cv5, cv9, and_assoc, exists_and_left, mChr_cons, mChr_nil]
    all_goals omega
  | [a, b, c] =>
    simp only [octet, mAlt, mSeq, mOpt, mChr_cons, mChr_nil]
    split_ifs
    all_goals simp_all [decVal, mChr_cons, mChr_nil]
    all_goals simp_all [isDigitCh_iff, charNat_eq, charNat_le, cv0, cv1, cv2,
      cv4, cv5, cv9, and_assoc, exists_and_left, mChr_cons, mChr_nil]
    all_goals omega
  | a :: b :: c :: d :: t =>
    simp only [octet, mAlt, mSeq, mOpt, mChr_cons, mChr_nil]
    split_ifs
    all_goals simp_all [mChr_cons, mChr_nil]

/-- C4: `looksLikePort` holds exactly when the lowercased key contains the
substring `port` and the quote-stripped value is a pure digit string of
length 2–5; in particular `("port","1")` is rejected as too short,
`("port","65535")` is accepted, `("timeout","5000")` lacks a port key, and
the out-of-range digit strings `"00"` and `"99999"` pass the digit-count
check. -/
theorem looksLikePort_spec :
    (∀ k v, looksLikePort k v = true ↔
      (hasSubstr (toLowerStr k) ("port".toList) = true ∧
       2 ≤ (stripQuotes v).length ∧ (stripQuotes v).length ≤ 5 ∧
       ∀ c ∈ stripQuotes v, isDigitCh c = true)) ∧
    looksLikePort ("port".toList) ("1".toList) = false ∧
    looksLikePort ("port".toList) ("65535".toList) = true ∧
    looksLikePort ("timeout".toList) ("5000".toList) = false ∧
    looksLikePort ("port".toList) ("00".toList) = true ∧
    looksLikePort ("port".toList) ("99999".toList) = true := by
  refine ⟨fun k v => ?_, by decide, by decide, by decide, by decide, by decide⟩
  simp only [looksLikePort]
  split_ifs with h1 h2
  all_goals simp_all [List.all_eq_true]
  all_goals omega

/-- C5: `looksLikeIP` rejects `192.168.1.256` (an IPv4 octet out of range),
accepts `192.168.1.1` and the IPv6 loopback `::1`, tests the quote-stripped
value with the same substring patterns (witnessed on a quoted address), and
its embedded octet pattern accepts exactly the 1–3 digit numerals of value
0–255. -/
theorem looksLikeIP_spec :
    looksLikeIP ("192.168.1.256".toList) = false ∧
    looksLikeIP ("192.168.1.1".toList) = true ∧
    looksLikeIP ("::1".toList) = true ∧
    looksLikeIP ("\"192.168.1.1\"".toList) = true ∧
    (∀ s, looksLikeIP s =
      ((ipv4Find (stripQuotes s)).isSome || (ipv6Find (stripQuotes s)).isSome)) ∧
    (∀ l, ((octet l).any fun p => p.2.isEmpty) = true ↔
      (l ≠ [] ∧ l.length ≤ 3 ∧ (∀ c ∈ l, isDigitCh c = true) ∧
        decVal l ≤ 255)) :=
  ⟨by decide, by decide, by decide, by decide, fun s => rfl, octet_accepts_iff⟩


theorem buildIndexAux_eq (q : List Char) :
    ∀ (ls : List (List Char)) (m : List Char → Option Nat) (i : Nat),
    buildIndexAux m i ls q =
      match lastValidIdx q ls with
      | some t => some (i + t)
      | none => m q := by
  intro ls
  induction ls with
  | nil => intro m i; rfl
  | cons line rest ih =>
    intro m i
    rw [buildIndexAux, ih]
    rcases hrest : lastValidIdx q rest with _ | t
    · rw [lastValidIdx, hrest]
      dsimp only
      by_cases hcb : isCommentOrBlank line = true
      · rw [if_pos hcb]
        have hlk : lineKey line = none := by simp [lineKey, hcb]
        rw [hlk]
        simp
      · rw [if_neg hcb]
        rcases hp : parseKV line with _ | ⟨⟨k, v⟩⟩
        · have hlk : lineKey line = none := by simp [lineKey, hcb, hp]
          rw [hlk]
          simp
        · have hlk : lineKey line = some k := by simp [lineKey, hcb, hp]
          rw [hlk]
          dsimp only
          by_cases hq : q = k
          · subst hq
            simp
          · rw [if_neg hq, if_neg (by simpa [eq_comm] using hq)]
    · rw [lastValidIdx, hrest]
      dsimp only
      rw [Nat.add_assoc, Nat.add_comm 1 t]

theorem buildIndex_eq (lines : List (List Char)) (q : List Char) :
    buildIndex lines q = lastValidIdx q lines := by
  rw [buildIndex, buildIndexAux_eq]
  rcases h : lastValidIdx q lines with _ | t
  · rfl
  · simp

theorem lastValidIdx_none {q : List Char} {ls : List (List Char)}
    (h : lastValidIdx q ls = none) :
    ∀ u, u < ls.length → lineKey (ls.getD u []) ≠ some q := by
  induction ls with
  | nil => intro u hu; simp at hu
  | cons line rest ih =>
    rw [lastValidIdx] at h
    rcases hrest : lastValidIdx q rest with _ | t
    · rw [hrest] at h
      dsimp only at h
      intro u hu
      match u with
      | 0 =>
        intro hk
        rw [if_pos (by simpa using hk)] at h
        exact Option.some_ne_none 0 h
      | u' + 1 =>
        exact ih hrest u' (by simpa using hu)
    · rw [hrest] at h
      exact absurd h (by simp)

theorem lastValidIdx_some {q : List Char} {ls : List (List Char)} {t : Nat}
    (h : lastValidIdx q ls = some t) :
    t < ls.length ∧ lineKey (ls.getD t []) = some q ∧
    ∀ u, t < u → u < ls.length → lineKey (ls.getD u []) ≠ some q := by
  induction ls generalizing t with
  | nil => exact absurd h (by simp [lastValidIdx])
  | cons line rest ih =>
    rw [lastValidIdx] at h
    rcases hrest : lastValidIdx q rest with _ | t'
    · rw [hrest] at h
      dsimp only at h
      by_cases hk : lineKey line = some q
      · rw [if_pos hk] at h
        injection h with h
        subst h
        refine ⟨by simp, by simpa using hk, fun u hu hulen => ?_⟩
        match u, hu with
        | u' + 1, _ =>
          exact lastValidIdx_none hrest u' (by simpa using hulen)
      · rw [if_neg hk] at h
        exact absurd h (by simp)
    · rw [hrest] at h
      dsimp only at h
      injection h with h
      subst h
      obtain ⟨h1, h2, h3⟩ := ih hrest
      refine ⟨by simpa using h1, by simpa using h2, fun u hu hulen => ?_⟩
      match u, hu with
      | u' + 1, _ =>
        exact h3 u' (by omega) (by simpa using hulen)

theorem buildIndex_some {lines : List (List Char)} {q : List Char} {i : Nat}
    (h : buildIndex lines q = some i) :
    i < lines.length ∧ lineKey (lines.getD i []) = some q ∧
    ∀ u, i < u → u < lines.length → lineKey (lines.getD u []) ≠ some q := by
  rw [buildIndex_eq] at h
  exact lastValidIdx_some h

theorem buildIndex_none {lines : List (List Char)} {q : List Char}
    (h : buildIndex lines q = none) :
    ∀ u, u < lines.length → lineKey (lines.getD u []) ≠ some q := by
  rw [buildIndex_eq] at h
  exact lastValidIdx_none h

theorem lineKey_parse {line q : List Char} (h : lineKey line = some q) :
    ∃ v, parseKV line = some (q, v) := by
  rw [lineKey] at h
  by_cases hcb : isCommentOrBlank line = true
  · rw [if_pos hcb] at h
    exact absurd h (by simp)
  · rw [if_neg hcb] at h
    rcases hp : parseKV line with _ | ⟨⟨k, v⟩⟩
    · rw [hp] at h
      exact absurd h (by simp)
    · rw [hp] at h
      simp only [Option.map_some', Option.some_inj] at h
      exact ⟨v, by rw [h]⟩

theorem parse_lineKey {line q v : List Char} (h : parseKV line = some (q, v)) :
    lineKey line = some q := by
  have hcb : isCommentOrBlank line = false := by
    by_cases hc : isCommentOrBlank line = true
    · rw [parseKV_none_of_commentOrBlank hc] at h
      exact absurd h (by simp)
    · simpa using hc
  simp [lineKey, hcb, h]

theorem getD_set_ne {L : List (List Char)} {i j : Nat} {x d : List Char}
    (h : i ≠ j) : (L.set i x).getD j d = L.getD j d := by
  rw [List.getD_eq_getElem?_getD, List.getElem?_set_ne h,
    ← List.getD_eq_getElem?_getD]

theorem getD_set_self {L : List (List Char)} {j : Nat} {x d : List Char}
    (h : j < L.length) : (L.set j x).getD j d = x := by
  rw [List.getD_eq_getElem?_getD, List.getElem?_set_self h]
  rfl

/-- The per-state effect of one toggle iteration is independent of the
change/skip accumulators: they are only appended to. -/
theorem toggleStep_acc (m : List Char → Option Nat) (L : List (List Char))
    (C : List ChangeRec) (S : List (List Char × List Char))
    (a : List Char) :
    toggleStep m ⟨L, C, S⟩ a =
      ⟨(toggleStep m ⟨L, [], []⟩ a).lines,
       C ++ (toggleStep m ⟨L, [], []⟩ a).changes,
       S ++ (toggleStep m ⟨L, [], []⟩ a).skips⟩ := by
  rw [toggleStep, toggleStep]
  rcases hma : m a with _ | idx <;> simp only [hma]
  · simp
  · split_ifs <;> simp

/-- Accumulator threading through the whole loop. -/
theorem flipLoop_acc (m : List Char → Option Nat) :
    ∀ (want : List (List Char)) (L : List (List Char)) (C : List ChangeRec)
      (S : List (List Char × List Char)),
    flipLoop m ⟨L, C, S⟩ want =
      ⟨(flipLoop m ⟨L, [], []⟩ want).lines,
       C ++ (flipLoop m ⟨L, [], []⟩ want).changes,
       S ++ (flipLoop m ⟨L, [], []⟩ want).skips⟩ := by
  intro want
  induction want with
  | nil => intro L C S; simp [flipLoop]
  | cons a rest ih =>
    intro L C S
    rw [flipLoop, flipLoop, toggleStep_acc, ih]
    conv_rhs =>
      rw [(rfl : toggleStep m ⟨L, [], []⟩ a =
        ⟨(toggleStep m ⟨L, [], []⟩ a).lines,
         (toggleStep m ⟨L, [], []⟩ a).changes,
         (toggleStep m ⟨L, [], []⟩ a).skips⟩), ih]
    simp [List.append_assoc]

/-- One toggle iteration never changes the number of lines. -/
theorem toggleStep_length (m : List Char → Option Nat) (st : TState)
    (a : List Char) : (toggleStep m st a).lines.length = st.lines.length := by
  rw [toggleStep]
  rcases hma : m a with _ | idx
  · rfl
  · dsimp only
    split_ifs <;> simp

/-- The toggle loop never changes the number of lines. -/
theorem flipLoop_length (m : List Char → Option Nat) :
    ∀ (want : List (List Char)) (st : TState),
    (flipLoop m st want).lines.length = st.lines.length := by
  intro want
  induction want with
  | nil => intro st; rfl
  | cons a rest ih =>
    intro st
    rw [flipLoop, ih, toggleStep_length]

/-- Frame: a line index that no requested adapter maps to is untouched. -/
theorem flipLoop_untouched (m : List Char → Option Nat) {i : Nat}
    {d : List Char} :
    ∀ (want : List (List Char)) (st : TState),
    (∀ a ∈ want, ∀ idx, m a = some idx → idx ≠ i) →
    (flipLoop m st want).lines.getD i d = st.lines.getD i d := by
  intro want
  induction want with
  | nil => intro st _; rfl
  | cons a rest ih =>
    intro st h
    rw [flipLoop, ih _ fun b hb => h b (List.mem_cons_of_mem a hb)]
    rw [toggleStep]
    rcases hma : m a with _ | idx
    · rfl
    · dsimp only
      have hne : idx ≠ i := h a (List.mem_cons_self a rest) idx hma
      split_ifs
      · exact getD_set_ne hne
      · exact getD_set_ne hne
      · rfl

/-- C6: if a requested key appears on several parsed lines, only the last
occurrence is indexed, and every earlier line bearing that key is left
byte-identical by the toggle, for every requested key list. -/
theorem toggle_lastOccurrenceWins (lines want : List (List Char))
    (K : List Char) (i j : Nat) (d : List Char) (hij : i < j)
    (hj : j < lines.length)
    (hKi : lineKey (lines.getD i []) = some K)
    (hKj : lineKey (lines.getD j []) = some K) :
    (flipAdapters lines want).lines.getD i d = lines.getD i d ∧
    ∃ m, buildIndex lines K = some m ∧ j ≤ m := by
  have hmain : ∀ a ∈ want, ∀ idx, buildIndex lines a = some idx → idx ≠ i := by
    intro a _ idx hidx rfl2
    subst rfl2
    obtain ⟨hlt, hkey, hmax⟩ := buildIndex_some hidx
    rw [hKi] at hkey
    injection hkey with hkey
    subst hkey
    exact hmax j hij hj hKj
  constructor
  · rw [flipAdapters]
    exact flipLoop_untouched _ _ _ hmain
  · rcases hbi : buildIndex lines K with _ | m
    · exact absurd hKj (buildIndex_none hbi j hj)
    · refine ⟨m, rfl, ?_⟩
      obtain ⟨hlt, hkey, hmax⟩ := buildIndex_some hbi
      by_contra hlt2
      exact hmax j (by omega) hj hKj


theorem buildIndex_indexInv (lines : List (List Char)) :
    IndexInv (buildIndex lines) lines := by
  intro b idx hidx
  obtain ⟨hlt, hkey, -⟩ := buildIndex_some hidx
  exact ⟨hlt, lineKey_parse hkey⟩

theorem indexInv_toggleStep {m : List Char → Option Nat} {st : TState}
    (hInv : IndexInv m st.lines) (a : List Char) :
    IndexInv m (toggleStep m st a).lines := by
  rw [toggleStep]
  rcases hma : m a with _ | idx
  · exact hInv
  · obtain ⟨hlt, v, hv⟩ := hInv a idx hma
    dsimp only
    have hkv : (parseKV (st.lines.getD idx [])).getD ([], []) = (a, v) := by
      rw [hv]; rfl
    obtain ⟨hkne, hkc⟩ := parseKV_key_chars hv
    have hset : ∀ nv : List Char, nv ≠ [] → (∀ c ∈ nv, isDigitCh c = true) →
        IndexInv m (st.lines.set idx (a ++ '=' :: nv)) := by
      intro nv hnvne hnvd b idx' hidx'
      obtain ⟨hlt', v', hv'⟩ := hInv b idx' hidx'
      refine ⟨by simpa using hlt', ?_⟩
      by_cases he : idx' = idx
      · subst he
        have hba : b = a := by
          rw [hv] at hv'
          injection hv' with h2
          exact ((Prod.mk.injEq _ _ _ _ ▸ h2).1).symm
        subst hba
        rw [getD_set_self hlt']
        exact ⟨nv, parseKV_mk hkne hkc hnvne hnvd⟩
      · rw [getD_set_ne fun h2 => he h2.symm]
        exact ⟨v', hv'⟩
    split_ifs with h0 h1
    · rw [hkv]
      exact hset _ (by simp) (by intro c hc; simp only [String.toList] at hc; rw [List.mem_singleton] at hc; subst hc; decide)
    · rw [hkv]
      exact hset _ (by simp) (by intro c hc; simp only [String.toList] at hc; rw [List.mem_singleton] at hc; subst hc; decide)
    · exact hInv

/-- Skip records already accumulated survive the rest of the loop. -/
theorem flipLoop_skips_mono {m : List Char → Option Nat}
    {L : List (List Char)} {C : List ChangeRec}
    {S : List (List Char × List Char)} {want : List (List Char)}
    {x : List Char × List Char} (hx : x ∈ S) :
    x ∈ (flipLoop m ⟨L, C, S⟩ want).skips := by
  rw [flipLoop_acc]
  exact List.mem_append_left _ hx

/-- Every change produced by the loop (beyond those already accumulated) is
a binary `0↔1` flip whose adapter is an indexed key. -/
theorem flipLoop_changes_spec {m : List Char → Option Nat} :
    ∀ (want : List (List Char)) (L : List (List Char)) (C : List ChangeRec)
      (S : List (List Char × List Char)), IndexInv m L →
    ∀ c ∈ (flipLoop m ⟨L, C, S⟩ want).changes, c ∈ C ∨
      (((c.oldValue = "0".toList ∧ c.newValue = "1".toList) ∨
        (c.oldValue = "1".toList ∧ c.newValue = "0".toList)) ∧
       m c.adapter ≠ none) := by
  intro want
  induction want with
  | nil => intro L C S _ c hc; exact Or.inl hc
  | cons a rest ih =>
    intro L C S hInv c hc
    rw [flipLoop] at hc
    have hInv' : IndexInv m (toggleStep m ⟨L, C, S⟩ a).lines :=
      @indexInv_toggleStep m ⟨L, C, S⟩ hInv a
    have step := ih (toggleStep m ⟨L, C, S⟩ a).lines
      (toggleStep m ⟨L, C, S⟩ a).changes (toggleStep m ⟨L, C, S⟩ a).skips
      hInv' c (by
        convert hc using 2)
    rcases step with hin | hbin
    · -- c came from the first step's accumulator
      rw [toggleStep] at hin
      rcases hma : m a with _ | idx
      · rw [hma] at hin
        exact Or.inl hin
      · rw [hma] at hin
        dsimp only at hin
        obtain ⟨hlt, v, hv⟩ := hInv a idx hma
        have hkv : (parseKV (L.getD idx [])).getD ([], []) = (a, v) := by
          rw [hv]; rfl
        rw [hkv] at hin
        split_ifs at hin with h0 h1
        · rcases List.mem_append.mp hin with hin | hin
          · exact Or.inl hin
          · rw [List.mem_singleton] at hin
            subst hin
            refine Or.inr ⟨Or.inl ⟨?_, rfl⟩, by simp [hma]⟩
            exact h0
        · rcases List.mem_append.mp hin with hin | hin
          · exact Or.inl hin
          · rw [List.mem_singleton] at hin
            subst hin
            refine Or.inr ⟨Or.inr ⟨?_, rfl⟩, by simp [hma]⟩
            exact h1
        · exact Or.inl hin
    · exact Or.inr hbin

/-- A requested key with no index entry always yields a `not found` skip. -/
theorem flipLoop_notfound {m : List Char → Option Nat} {a : List Char}
    (hma : m a = none) :
    ∀ (want : List (List Char)) (L : List (List Char)) (C : List ChangeRec)
      (S : List (List Char × List Char)), a ∈ want →
    (a, "not found".toList) ∈ (flipLoop m ⟨L, C, S⟩ want).skips := by
  intro want
  induction want with
  | nil => intro L C S h; simp at h
  | cons b rest ih =>
    intro L C S hmem
    rw [flipLoop]
    rcases List.mem_cons.mp hmem with rfl | hmem'
    · have hstep : toggleStep m ⟨L, C, S⟩ a =
          ⟨L, C, S ++ [(a, "not found".toList)]⟩ := by
        rw [toggleStep, hma]
      rw [hstep]
      exact flipLoop_skips_mono (List.mem_append_right _ (List.mem_singleton.mpr rfl))
    · rw [(rfl : toggleStep m ⟨L, C, S⟩ b =
        ⟨(toggleStep m ⟨L, C, S⟩ b).lines, (toggleStep m ⟨L, C, S⟩ b).changes,
         (toggleStep m ⟨L, C, S⟩ b).skips⟩)]
      exact ih _ _ _ hmem'

/-- Behaviour at a key whose indexed line holds a non-binary value: a
`non-binary value` skip is recorded and the line is never altered by the
whole loop. -/
theorem flipLoop_nonbinary {m : List Char → Option Nat} {a : List Char}
    {idx : Nat} {v : List Char}
    (huniq : ∀ b idx', m b = some idx' → idx' = idx → b = a)
    (hma : m a = some idx)
    (h0 : trimGo v ≠ "0".toList) (h1 : trimGo v ≠ "1".toList) :
    ∀ (want : List (List Char)) (L : List (List Char)) (C : List ChangeRec)
      (S : List (List Char × List Char)),
    parseKV (L.getD idx []) = some (a, v) →
    ((flipLoop m ⟨L, C, S⟩ want).lines.getD idx [] = L.getD idx [] ∧
     (a ∈ want →
      (a, "non-binary value".toList) ∈ (flipLoop m ⟨L, C, S⟩ want).skips)) := by
  intro want
  induction want with
  | nil => intro L C S _; exact ⟨rfl, by simp⟩
  | cons b rest ih =>
    intro L C S hv
    have hkv : (parseKV (L.getD idx [])).getD ([], []) = (a, v) := by
      rw [hv]; rfl
    rw [flipLoop]
    rcases hmb : m b with _ | idx'
    · -- not-found step: lines unchanged
      have hstep : toggleStep m ⟨L, C, S⟩ b =
          ⟨L, C, S ++ [(b, "not found".toList)]⟩ := by
        rw [toggleStep, hmb]
      rw [hstep]
      obtain ⟨hl, hs⟩ := ih L C (S ++ [(b, "not found".toList)]) hv
      refine ⟨hl, fun hmem => ?_⟩
      rcases List.mem_cons.mp hmem with rfl | hmem'
      · rw [hma] at hmb
        exact absurd hmb (by simp)
      · exact hs hmem'
    · by_cases he : idx' = idx
      · -- this step touches our line: the key must be `a`, value non-binary
        subst he
        have hba : b = a := huniq b idx' hmb rfl
        subst hba
        have hstep : toggleStep m ⟨L, C, S⟩ b =
            ⟨L, C, S ++ [(b, "non-binary value".toList)]⟩ := by
          rw [toggleStep, hmb]
          dsimp only
          rw [hkv]
          rw [if_neg h0, if_neg h1]
        rw [hstep]
        obtain ⟨hl, hs⟩ := ih L C (S ++ [(b, "non-binary value".toList)]) hv
        refine ⟨hl, fun _ => ?_⟩
        exact flipLoop_skips_mono
          (List.mem_append_right _ (List.mem_singleton.mpr rfl))
      · -- the step rewrites a different line
        have hlineseq : (toggleStep m ⟨L, C, S⟩ b).lines.getD idx [] =
            L.getD idx [] := by
          rw [toggleStep, hmb]
          dsimp only
          split_ifs
          · exact getD_set_ne he
          · exact getD_set_ne he
          · rfl
        rw [(rfl : toggleStep m ⟨L, C, S⟩ b =
          ⟨(toggleStep m ⟨L, C, S⟩ b).lines, (toggleStep m ⟨L, C, S⟩ b).changes,
           (toggleStep m ⟨L, C, S⟩ b).skips⟩)]
        obtain ⟨hl, hs⟩ := ih (toggleStep m ⟨L, C, S⟩ b).lines
          (toggleStep m ⟨L, C, S⟩ b).changes (toggleStep m ⟨L, C, S⟩ b).skips
          (by rw [hlineseq]; exact hv)
        refine ⟨by rw [hl, hlineseq], fun hmem => ?_⟩
        rcases List.mem_cons.mp hmem with rfl | hmem'
        · rw [hma] at hmb
          injection hmb with h2
          exact absurd h2.symm he
        · exact hs hmem'

/-- C7: skips are non-fatal and ChangeRecords are always binary flips.
For every file and requested key list: a key with no indexed line yields a
`not found` skip and no ChangeRecord while later keys are still processed
(the run on `a :: rest` is the run on `rest` plus the skip); a key whose
trimmed current value is not `0`/`1` yields a `non-binary value` skip and
its line is left unaltered; and every ChangeRecord flips between the
literal strings `0` and `1`. -/
theorem toggle_skipSemantics (lines want : List (List Char)) :
    (∀ c ∈ (flipAdapters lines want).changes,
      (c.oldValue = "0".toList ∧ c.newValue = "1".toList) ∨
      (c.oldValue = "1".toList ∧ c.newValue = "0".toList)) ∧
    (∀ a ∈ want, buildIndex lines a = none →
      ((a, "not found".toList) ∈ (flipAdapters lines want).skips ∧
       ∀ c ∈ (flipAdapters lines want).changes, c.adapter ≠ a)) ∧
    (∀ a ∈ want, ∀ idx v, buildIndex lines a = some idx →
      parseKV (lines.getD idx []) = some (a, v) →
      trimGo v ≠ "0".toList → trimGo v ≠ "1".toList →
      ((a, "non-binary value".toList) ∈ (flipAdapters lines want).skips ∧
       (flipAdapters lines want).lines.getD idx [] = lines.getD idx [])) ∧
    (∀ a rest, buildIndex lines a = none →
      flipAdapters lines (a :: rest) =
        ⟨(flipAdapters lines rest).lines, (flipAdapters lines rest).changes,
         (a, "not found".toList) :: (flipAdapters lines rest).skips⟩) := by
  refine ⟨?_, ?_, ?_, ?_⟩
  · intro c hc
    rcases flipLoop_changes_spec want lines [] []
      (buildIndex_indexInv lines) c hc with h | h
    · simp at h
    · exact h.1
  · intro a hmem hnone
    refine ⟨flipLoop_notfound hnone want lines [] [] hmem, fun c hc hca => ?_⟩
    rcases flipLoop_changes_spec want lines [] []
      (buildIndex_indexInv lines) c hc with h | h
    · simp at h
    · rw [hca, hnone] at h
      exact h.2 rfl
  · intro a hmem idx v hidx hv h0 h1
    have huniq : ∀ b idx', buildIndex lines b = some idx' → idx' = idx →
        b = a := by
      intro b idx' hb he
      subst he
      obtain ⟨-, hkey, -⟩ := buildIndex_some hb
      rw [parse_lineKey hv] at hkey
      injection hkey with h2
      exact h2.symm
    obtain ⟨hl, hs⟩ := flipLoop_nonbinary huniq hidx h0 h1 want lines [] [] hv
    exact ⟨hs hmem, hl⟩
  · intro a rest hnone
    rw [flipAdapters, flipAdapters, flipLoop]
    have hstep : toggleStep (buildIndex lines) ⟨lines, [], []⟩ a =
        ⟨lines, [], [(a, "not found".toList)]⟩ := by
      rw [toggleStep, hnone]
      simp
    rw [hstep, flipLoop_acc]
    simp

/-- Witness for `toggle_skipSemantics` on the file `a = 2 / b= 1` with
requested keys `a, b, missing`: `missing` is skipped as not found with no
change record, `a` is skipped as non-binary with its line intact, and the
single change record is the binary flip of `b`. -/
theorem toggle_skipSemantics_witness :
    (("missing".toList, "not found".toList) ∈
        (flipAdapters ["a = 2".toList, "b= 1".toList]
          ["a".toList, "b".toList, "missing".toList]).skips ∧
      ∀ c ∈ (flipAdapters ["a = 2".toList, "b= 1".toList]
          ["a".toList, "b".toList, "missing".toList]).changes,
        c.adapter ≠ "missing".toList) ∧
    (("a".toList, "non-binary value".toList) ∈
        (flipAdapters ["a = 2".toList, "b= 1".toList]
          ["a".toList, "b".toList, "missing".toList]).skips ∧
      (flipAdapters ["a = 2".toList, "b= 1".toList]
          ["a".toList, "b".toList, "missing".toList]).lines.getD 0 [] =
        "a = 2".toList) ∧
    ∀ c ∈ (flipAdapters ["a = 2".toList, "b= 1".toList]
        ["a".toList, "b".toList, "missing".toList]).changes,
      (c.oldValue = "0".toList ∧ c.newValue = "1".toList) ∨
      (c.oldValue = "1".toList ∧ c.newValue = "0".toList) := by
  obtain ⟨p1, p2, p3, -⟩ := toggle_skipSemantics
    ["a = 2".toList, "b= 1".toList] ["a".toList, "b".toList, "missing".toList]
  exact ⟨p2 ("missing".toList) (by decide) (by decide),
    ⟨(p3 ("a".toList) (by decide) 0 ("2".toList) (by decide) (by decide)
        (by decide) (by decide)).1,
     (p3 ("a".toList) (by decide) 0 ("2".toList) (by decide) (by decide)
        (by decide) (by decide)).2⟩,
    p1⟩


/-- Dichotomy invariant of the toggle loop: with pairwise-distinct
requested keys, every line of the evolving buffer is either its original
or a toggled rewrite of its original, and lines indexed by still-pending
keys are original. -/
theorem flipLoop_dichotomy {m : List Char → Option Nat}
    {L0 : List (List Char)}
    (hInv0 : ∀ b idx, m b = some idx →
      idx < L0.length ∧ ∃ v, parseKV (L0.getD idx []) = some (b, v)) :
    ∀ (want : List (List Char)) (L : List (List Char)) (C : List ChangeRec)
      (S : List (List Char × List Char)),
    want.Nodup →
    L.length = L0.length →
    (∀ i, L.getD i [] = L0.getD i [] ∨ flippedLine (L0.getD i []) (L.getD i [])) →
    (∀ a ∈ want, ∀ idx, m a = some idx → L.getD idx [] = L0.getD idx []) →
    ∀ i, (flipLoop m ⟨L, C, S⟩ want).lines.getD i [] = L0.getD i [] ∨
      flippedLine (L0.getD i []) ((flipLoop m ⟨L, C, S⟩ want).lines.getD i []) := by
  intro want
  induction want with
  | nil => intro L C S _ _ hdich _ i; exact hdich i
  | cons a rest ih =>
    intro L C S hnd hlen hdich htarget i
    rw [flipLoop]
    rcases hma : m a with _ | idx
    · -- not found: state's lines unchanged
      have hstep : toggleStep m ⟨L, C, S⟩ a =
          ⟨L, C, S ++ [(a, "not found".toList)]⟩ := by
        rw [toggleStep, hma]
      rw [hstep]
      exact ih L C (S ++ [(a, "not found".toList)]) (List.Nodup.of_cons hnd)
        hlen hdich (fun b hb => htarget b (List.mem_cons_of_mem a hb)) i
    · obtain ⟨hlt, v, hv0⟩ := hInv0 a idx hma
      have horig : L.getD idx [] = L0.getD idx [] :=
        htarget a (List.mem_cons_self a rest) idx hma
      have hv : parseKV (L.getD idx []) = some (a, v) := by rw [horig]; exact hv0
      have hkv : (parseKV (L.getD idx [])).getD ([], []) = (a, v) := by
        rw [hv]; rfl
      have hlt' : idx < L.length := by omega
      rw [toggleStep, hma]
      dsimp only
      rw [hkv]
      -- facts common to both rewrite branches
      have hbranch : ∀ nv : List Char,
          (trimGo v = "0".toList ∧ nv = "1".toList) ∨
          (trimGo v = "1".toList ∧ nv = "0".toList) →
          (flipLoop m ⟨L.set idx (a ++ '=' :: nv), C ++ [⟨a, trimGo v, nv⟩], S⟩
              rest).lines.getD i [] = L0.getD i [] ∨
          flippedLine (L0.getD i [])
            ((flipLoop m ⟨L.set idx (a ++ '=' :: nv), C ++ [⟨a, trimGo v, nv⟩], S⟩
              rest).lines.getD i []) := by
        intro nv hnv
        apply ih _ _ _ (List.Nodup.of_cons hnd) (by simpa using hlen)
        · -- dichotomy after the rewrite
          intro j
          by_cases hji : j = idx
          · subst hji
            right
            rw [getD_set_self hlt']
            refine ⟨a, v, hv0, ?_⟩
            rcases hnv with ⟨ht, rfl⟩ | ⟨ht, rfl⟩
            · exact Or.inl ⟨ht, rfl⟩
            · exact Or.inr ⟨ht, rfl⟩
          · rw [getD_set_ne fun h2 => hji h2.symm]
            exact hdich j
        · -- pending keys still point at original lines
          intro b hb idx' hb'
          by_cases he : idx' = idx
          · subst he
            obtain ⟨-, v', hv'⟩ := hInv0 b idx' hb'
            rw [hv0] at hv'
            injection hv' with h2
            have hba : b = a := ((Prod.mk.injEq _ _ _ _ ▸ h2).1).symm
            subst hba
            exact absurd hb (List.Nodup.not_mem hnd)
          · rw [getD_set_ne fun h2 => he h2.symm]
            exact htarget b (List.mem_cons_of_mem a hb) idx' hb'
      split_ifs with h0 h1
      · exact hbranch _ (Or.inl ⟨h0, rfl⟩)
      · exact hbranch _ (Or.inr ⟨h1, rfl⟩)
      · exact ih L C (S ++ [(a, "non-binary value".toList)])
          (List.Nodup.of_cons hnd) hlen hdich
          (fun b hb => htarget b (List.mem_cons_of_mem a hb)) i

theorem splitNl_ne_nil (l : List Char) : splitNl l ≠ [] := by
  cases l with
  | nil => simp [splitNl]
  | cons c r =>
    rw [splitNl]
    split_ifs
    · simp
    · rcases h : splitNl r with _ | ⟨h', t⟩ <;> simp

theorem mem_splitNl_no_nl : ∀ (l : List Char), ∀ x ∈ splitNl l, '\n' ∉ x := by
  intro l
  induction l with
  | nil =>
    intro x hx
    rw [splitNl, List.mem_singleton] at hx
    subst hx
    simp
  | cons c r ih =>
    intro x hx
    rw [splitNl] at hx
    split_ifs at hx with hc
    · rcases List.mem_cons.mp hx with rfl | hx'
      · simp
      · exact ih x hx'
    · rcases hs : splitNl r with _ | ⟨h', t⟩
      · exact absurd hs (splitNl_ne_nil r)
      · rw [hs] at hx
        rcases List.mem_cons.mp hx with rfl | hx'
        · intro hmem
          rcases List.mem_cons.mp hmem with rfl | hmem'
          · exact hc rfl
          · exact ih h' (by rw [hs]; exact List.mem_cons_self h' t) hmem'
        · exact ih x (by rw [hs]; exact List.mem_cons_of_mem h' hx')

theorem splitNl_nlfree {x : List Char} (h : '\n' ∉ x) : splitNl x = [x] := by
  induction x with
  | nil => rfl
  | cons c r ih =>
    rw [splitNl, if_neg (by intro hc; exact h (by rw [hc]; exact List.mem_cons_self _ _)),
      ih (fun hm => h (List.mem_cons_of_mem c hm))]

theorem splitNl_append_cons {x : List Char} (r : List Char) (h : '\n' ∉ x) :
    splitNl (x ++ '\n' :: r) = x :: splitNl r := by
  induction x with
  | nil => rw [List.nil_append, splitNl, if_pos rfl]
  | cons c t ih =>
    rw [List.cons_append, splitNl,
      if_neg (by intro hc; exact h (by rw [hc]; exact List.mem_cons_self _ _)),
      ih (fun hm => h (List.mem_cons_of_mem c hm))]

theorem splitNl_joinNl : ∀ (ls : List (List Char)), ls ≠ [] →
    (∀ x ∈ ls, '\n' ∉ x) → splitNl (joinNl ls) = ls := by
  intro ls
  induction ls with
  | nil => intro h; exact absurd rfl h
  | cons x rest ih =>
    intro _ hfree
    match rest with
    | [] =>
      rw [joinNl]
      exact splitNl_nlfree (hfree x (List.mem_cons_self x []))
    | y :: t =>
      rw [joinNl, splitNl_append_cons _ (hfree x (List.mem_cons_self _ _)),
        ih (by simp) (fun z hz => hfree z (List.mem_cons_of_mem x hz))]

theorem keyChar_ne_nl {c : Char} (h : isKeyChar c = true) : c ≠ '\n' := by
  rw [isKeyChar_iff] at h
  simp only [ne_eq, charNat_eq, (show ('\n' : Char).toNat = 10 from rfl)]
  omega

theorem flippedLine_no_nl {orig out : List Char} (h : flippedLine orig out) :
    '\n' ∉ out := by
  obtain ⟨k, v, hv, hcase⟩ := h
  obtain ⟨-, hkc⟩ := parseKV_key_chars hv
  have hknl : '\n' ∉ k := fun hm => keyChar_ne_nl (hkc _ hm) rfl
  rcases hcase with ⟨-, rfl⟩ | ⟨-, rfl⟩ <;>
  · intro hm
    rcases List.mem_append.mp hm with hm | hm
    · exact hknl hm
    · revert hm
      decide

/-- C1: the adapter toggle is lossless outside the toggled lines.  For
every file content and every duplicate-free requested key list, the output
line buffer has the same length as the input's, re-joining and re-splitting
it reproduces it exactly (so the serialized output has the same number of
newline-delimited lines), and every line is either byte-identical to the
corresponding input line (in place, so in original order) or is the
rewrite `k=<flipped>` of an input line that parsed as key `k` with binary
value. -/
theorem toggle_losslessFrame (content : List Char) (want : List (List Char))
    (hnd : want.Nodup) :
    (flipAdapters (splitNl content) want).lines.length =
      (splitNl content).length ∧
    splitNl (joinNl (flipAdapters (splitNl content) want).lines) =
      (flipAdapters (splitNl content) want).lines ∧
    ∀ i, (flipAdapters (splitNl content) want).lines.getD i [] =
        (splitNl content).getD i [] ∨
      flippedLine ((splitNl content).getD i [])
        ((flipAdapters (splitNl content) want).lines.getD i []) := by
  have hlen : (flipAdapters (splitNl content) want).lines.length =
      (splitNl content).length := flipLoop_length _ want _
  have hdich : ∀ i, (flipAdapters (splitNl content) want).lines.getD i [] =
        (splitNl content).getD i [] ∨
      flippedLine ((splitNl content).getD i [])
        ((flipAdapters (splitNl content) want).lines.getD i []) :=
    @flipLoop_dichotomy (buildIndex (splitNl content)) (splitNl content)
      (buildIndex_indexInv (splitNl content)) want (splitNl content) [] [] hnd
      rfl (fun _ => Or.inl rfl) (fun _ _ _ _ => rfl)
  refine ⟨hlen, ?_, hdich⟩
  apply splitNl_joinNl
  · intro hnil
    have h2 := splitNl_ne_nil content
    rw [hnil] at hlen
    simp only [List.length_nil] at hlen
    exact h2 (List.length_eq_zero.mp hlen.symm)
  · intro x hx
    obtain ⟨i, hi, hxi⟩ := List.mem_iff_getElem.mp hx
    have hxd : (flipAdapters (splitNl content) want).lines.getD i [] = x := by
      rw [List.getD_eq_getElem _ _ (by omega), hxi]
    rcases hdich i with hsame | hflip
    · rw [hxd] at hsame
      rw [hsame]
      have hmem2 : (splitNl content).getD i [] ∈ splitNl content := by
        rw [List.getD_eq_getElem _ _ (by omega)]
        exact List.getElem_mem _
      exact mem_splitNl_no_nl content _ hmem2
    · rw [hxd] at hflip
      exact flippedLine_no_nl hflip

/-- Witness for `toggle_losslessFrame` on the two-line file
`billing.adapter=0\n# note` with the single requested key. -/
theorem toggle_losslessFrame_witness :
    ([("billing.adapter".toList)] : List (List Char)).Nodup ∧
    ((flipAdapters (splitNl "billing.adapter=0\n# note".toList)
        ["billing.adapter".toList]).lines.length =
      (splitNl "billing.adapter=0\n# note".toList).length ∧
    splitNl (joinNl (flipAdapters (splitNl "billing.adapter=0\n# note".toList)
        ["billing.adapter".toList]).lines) =
      (flipAdapters (splitNl "billing.adapter=0\n# note".toList)
        ["billing.adapter".toList]).lines ∧
    ∀ i, (flipAdapters (splitNl "billing.adapter=0\n# note".toList)
        ["billing.adapter".toList]).lines.getD i [] =
        (splitNl "billing.adapter=0\n# note".toList).getD i [] ∨
      flippedLine ((splitNl "billing.adapter=0\n# note".toList).getD i [])
        ((flipAdapters (splitNl "billing.adapter=0\n# note".toList)
          ["billing.adapter".toList]).lines.getD i [])) :=
  ⟨by decide, toggle_losslessFrame ("billing.adapter=0\n# note".toList)
    ["billing.adapter".toList] (by decide)⟩

/-- Rewriting the indexed line with a line bearing the same key keeps the
index entry for that key. -/
theorem buildIndex_set_keep {lines : List (List Char)} {K newline : List Char}
    {idx : Nat} (hidx : buildIndex lines K = some idx)
    (hnew : lineKey newline = some K) :
    buildIndex (lines.set idx newline) K = some idx := by
  obtain ⟨hlt, hkey, hmax⟩ := buildIndex_some hidx
  rw [buildIndex_eq]
  rcases h2 : lastValidIdx K (lines.set idx newline) with _ | t
  · exfalso
    have h3 := lastValidIdx_none h2 idx (by simpa using hlt)
    rw [getD_set_self hlt] at h3
    exact h3 hnew
  · obtain ⟨hlt2, hkey2, hmax2⟩ := lastValidIdx_some h2
    by_cases he : t = idx
    · rw [he]
    · rw [getD_set_ne (fun h3 => he h3.symm)] at hkey2
      have hti : t ≤ idx := by
        by_contra hgt
        exact hmax t (by omega) (by simpa using hlt2) hkey2
      have hlt3 : t < idx := by omega
      exfalso
      have h4 := hmax2 idx hlt3 (by simpa using hlt)
      rw [getD_set_self hlt] at h4
      exact h4 hnew

/-- C8: toggling the same adapter key twice restores its value.  If the
key's current (trimmed) value is the binary `v`, then after two successive
`flip-adapters` runs on that single key the current value is again `v`. -/
theorem toggle_involution (lines : List (List Char)) (K v : List Char)
    (h : currentValue lines K = some v)
    (hb : v = "0".toList ∨ v = "1".toList) :
    currentValue
      (flipAdapters (flipAdapters lines [K]).lines [K]).lines K = some v := by
  rw [currentValue] at h
  rcases hidx : buildIndex lines K with _ | idx
  · rw [hidx] at h
    exact absurd h (by simp)
  rw [hidx] at h
  obtain ⟨hlt, hkey, -⟩ := buildIndex_some hidx
  obtain ⟨v0, hv0⟩ := lineKey_parse hkey
  simp only [Option.some_bind, hv0, Option.map_some', Option.some_inj] at h
  obtain ⟨hkne, hkc⟩ := parseKV_key_chars hv0
  -- the two rewritten lines
  have hmk : ∀ nv : List Char, nv = "0".toList ∨ nv = "1".toList →
      parseKV (K ++ '=' :: nv) = some (K, nv) := by
    intro nv hnv
    apply parseKV_mk hkne hkc
    · rcases hnv with rfl | rfl <;> simp
    · rcases hnv with rfl | rfl <;>
      · intro c hc
        simp only [String.toList] at hc
        rw [List.mem_singleton] at hc
        subst hc
        decide
  -- first toggle
  have hstep1 : ∀ nv old : List Char,
      trimGo v0 = old →
      ((old = "0".toList ∧ nv = "1".toList) ∨
       (old = "1".toList ∧ nv = "0".toList)) →
      (flipAdapters lines [K]).lines = lines.set idx (K ++ '=' :: nv) := by
    intro nv old hold hcase
    rw [flipAdapters, flipLoop, flipLoop, toggleStep, hidx]
    dsimp only
    rw [hv0]
    dsimp only [Option.getD_some]
    rcases hcase with ⟨h1, rfl⟩ | ⟨h1, rfl⟩
    · rw [hold, h1]
      rw [if_pos rfl]
    · rw [hold, h1]
      rw [if_neg (by decide), if_pos rfl]
  rcases hb with rfl | rfl
  · -- v = "0": first flip writes K=1, second writes K=0
    have hl1 : (flipAdapters lines [K]).lines =
        lines.set idx (K ++ '=' :: "1".toList) :=
      hstep1 _ _ h (Or.inl ⟨rfl, rfl⟩)
    have hbi1 : buildIndex (lines.set idx (K ++ '=' :: "1".toList)) K =
        some idx :=
      buildIndex_set_keep hidx (parse_lineKey (hmk _ (Or.inr rfl)))
    have hp1 : parseKV ((lines.set idx (K ++ '=' :: "1".toList)).getD idx []) =
        some (K, "1".toList) := by
      rw [getD_set_self hlt]
      exact hmk _ (Or.inr rfl)
    have hl2 : (flipAdapters (lines.set idx (K ++ '=' :: "1".toList)) [K]).lines =
        (lines.set idx (K ++ '=' :: "1".toList)).set idx
          (K ++ '=' :: "0".toList) := by
      rw [flipAdapters, flipLoop, flipLoop, toggleStep, hbi1]
      dsimp only
      rw [hp1]
      dsimp only [Option.getD_some]
      rw [if_neg (by decide), if_pos (by decide)]
    rw [hl1, hl2]
    have hbi2 := buildIndex_set_keep hbi1 (parse_lineKey (hmk _ (Or.inl rfl)))
    rw [currentValue, hbi2]
    simp only [Option.some_bind]
    rw [getD_set_self (by simpa using hlt), hmk _ (Or.inl rfl)]
    simp only [Option.map_some']
    decide
  · -- v = "1": symmetric
    have hl1 : (flipAdapters lines [K]).lines =
        lines.set idx (K ++ '=' :: "0".toList) :=
      hstep1 _ _ h (Or.inr ⟨rfl, rfl⟩)
    have hbi1 : buildIndex (lines.set idx (K ++ '=' :: "0".toList)) K =
        some idx :=
      buildIndex_set_keep hidx (parse_lineKey (hmk _ (Or.inl rfl)))
    have hp1 : parseKV ((lines.set idx (K ++ '=' :: "0".toList)).getD idx []) =
        some (K, "0".toList) := by
      rw [getD_set_self hlt]
      exact hmk _ (Or.inl rfl)
    have hl2 : (flipAdapters (lines.set idx (K ++ '=' :: "0".toList)) [K]).lines =
        (lines.set idx (K ++ '=' :: "0".toList)).set idx
          (K ++ '=' :: "1".toList) := by
      rw [flipAdapters, flipLoop, flipLoop, toggleStep, hbi1]
      dsimp only
      rw [hp1]
      dsimp only [Option.getD_some]
      rw [if_pos (by decide)]
    rw [hl1, hl2]
    have hbi2 := buildIndex_set_keep hbi1 (parse_lineKey (hmk _ (Or.inr rfl)))
    rw [currentValue, hbi2]
    simp only [Option.some_bind]
    rw [getD_set_self (by simpa using hlt), hmk _ (Or.inr rfl)]
    simp only [Option.map_some']
    decide

/-- Witness for `toggle_involution` on the one-line file `x = 0`. -/
theorem toggle_involution_witness :
    currentValue ["x = 0".toList] ("x".toList) = some ("0".toList) ∧
    currentValue
      (flipAdapters (flipAdapters ["x = 0".toList] ["x".toList]).lines
        ["x".toList]).lines ("x".toList) = some ("0".toList) :=
  ⟨by decide, toggle_involution ["x = 0".toList] ("x".toList) ("0".toList)
    (by decide) (Or.inl rfl)⟩



theorem scanLineRec_congr {a b : Nat} {x y : List Char} (h1 : a = b)
    (h2 : x = y) : scanLineRec a x = scanLineRec b y := by rw [h1, h2]

theorem scanFileAux_eq (n : Nat) (line : List Char) (rest : List (List Char)) :
    scanFileAux n (line :: rest) =
      if trimGo line = [] then scanFileAux (n + 1) rest
      else if fieldsEmpty line then scanFileAux (n + 1) rest
      else scanLineRec n line :: scanFileAux (n + 1) rest := by
  rfl

theorem scanFileAux_ln_ge :
    ∀ (ls : List (List Char)) (n : Nat) (r : MatchRecord),
    r ∈ scanFileAux n ls → n ≤ r.lineNumber := by
  intro ls
  induction ls with
  | nil => intro n r h; simp [scanFileAux] at h
  | cons line rest ih =>
    intro n r h
    rw [scanFileAux_eq] at h
    split_ifs at h with h1 h2
    · exact Nat.le_of_succ_le (ih (n + 1) r h)
    · exact Nat.le_of_succ_le (ih (n + 1) r h)
    · rcases List.mem_cons.mp h with rfl | h'
      · exact Nat.le_refl n
      · exact Nat.le_of_succ_le (ih (n + 1) r h')

theorem scanFileAux_count :
    ∀ (ls : List (List Char)) (n k : Nat),
    ((scanFileAux n ls).filter fun r => r.lineNumber = k).length ≤ 1 := by
  intro ls
  induction ls with
  | nil => intro n k; simp [scanFileAux]
  | cons line rest ih =>
    intro n k
    rw [scanFileAux_eq]
    split_ifs with h1 h2
    · exact ih (n + 1) k
    · exact ih (n + 1) k
    · rw [List.filter_cons]
      split_ifs with h3
      · have hk : n = k := by simpa [scanLineRec] using h3
        have htail : (scanFileAux (n + 1) rest).filter
            (fun r => decide (r.lineNumber = k)) = [] := by
          rw [List.filter_eq_nil_iff]
          intro r hr
          have hge := scanFileAux_ln_ge rest (n + 1) r hr
          simp only [decide_eq_true_eq]
          omega
        rw [htail]
        simp
      · exact ih (n + 1) k

theorem mem_scanFileAux (r : MatchRecord) :
    ∀ (ls : List (List Char)) (n : Nat),
    r ∈ scanFileAux n ls ↔ ∃ i, i < ls.length ∧
      trimGo (ls.getD i []) ≠ [] ∧ ¬fieldsEmpty (ls.getD i []) ∧
      r = scanLineRec (n + i) (ls.getD i []) := by
  intro ls
  induction ls with
  | nil =>
    intro n
    simp [scanFileAux]
  | cons line rest ih =>
    intro n
    have hshift : ∀ i : Nat,
        (i < rest.length ∧ trimGo (rest.getD i []) ≠ [] ∧
          ¬fieldsEmpty (rest.getD i []) ∧
          r = scanLineRec (n + 1 + i) (rest.getD i [])) ↔
        ((i + 1) < (line :: rest).length ∧
          trimGo ((line :: rest).getD (i + 1) []) ≠ [] ∧
          ¬fieldsEmpty ((line :: rest).getD (i + 1) []) ∧
          r = scanLineRec (n + (i + 1)) ((line :: rest).getD (i + 1) [])) := by
      intro i
      rw [List.getD_cons_succ]
      constructor
      · rintro ⟨h1, h2, h3, h4⟩
        exact ⟨by simpa using h1, h2, h3,
          h4.trans (scanLineRec_congr (by omega) rfl)⟩
      · rintro ⟨h1, h2, h3, h4⟩
        exact ⟨by simpa using h1, h2, h3,
          h4.trans (scanLineRec_congr (by omega) rfl)⟩
    rw [scanFileAux_eq]
    split_ifs with h1 h2
    · rw [ih]
      constructor
      · rintro ⟨i, hi⟩
        exact ⟨i + 1, (hshift i).mp hi⟩
      · rintro ⟨i, hi⟩
        match i with
        | 0 =>
          rw [List.getD_cons_zero] at hi
          exact absurd h1 hi.2.1
        | i' + 1 =>
          exact ⟨i', (hshift i').mpr hi⟩
    · rw [ih]
      constructor
      · rintro ⟨i, hi⟩
        exact ⟨i + 1, (hshift i).mp hi⟩
      · rintro ⟨i, hi⟩
        match i with
        | 0 =>
          rw [List.getD_cons_zero] at hi
          exact absurd h2 hi.2.2.1
        | i' + 1 =>
          exact ⟨i', (hshift i').mpr hi⟩
    · constructor
      · intro hmem
        rcases List.mem_cons.mp hmem with rfl | h'
        · exact ⟨0, by simp, by simpa using h1, by simpa using h2, by simp⟩
        · obtain ⟨i, hi⟩ := (ih (n + 1)).mp h'
          exact ⟨i + 1, (hshift i).mp hi⟩
      · rintro ⟨i, hi⟩
        match i with
        | 0 =>
          rw [List.getD_cons_zero] at hi
          rw [hi.2.2.2, Nat.add_zero]
          exact List.mem_cons_self _ _
        | i' + 1 =>
          exact List.mem_cons_of_mem _ ((ih (n + 1)).mpr ⟨i', (hshift i').mpr hi⟩)

/-- C9: the scan emits at most one MatchRecord per physical line number; a
record is emitted exactly for the non-blank lines with at least one
non-empty field, and carries exactly the computed fields; and a key/value
line satisfying both the IP and the port heuristic yields one single record
carrying both findings. -/
theorem scan_oneRecordPerLine (lines : List (List Char)) :
    (∀ k, ((scanFileRows lines).filter fun r => r.lineNumber = k).length ≤ 1) ∧
    (∀ r, r ∈ scanFileRows lines ↔ ∃ i, i < lines.length ∧
      trimGo (lines.getD i []) ≠ [] ∧ ¬fieldsEmpty (lines.getD i []) ∧
      r = scanLineRec (1 + i) (lines.getD i [])) ∧
    (∀ r ∈ scanFileRows lines,
      ¬(r.ipKey = [] ∧ r.ipValue = [] ∧ r.portKey = [] ∧ r.portValue = [])) ∧
    (∀ i, i < lines.length → trimGo (lines.getD i []) = [] →
      ∀ r ∈ scanFileRows lines, r.lineNumber ≠ 1 + i) ∧
    (∀ i k v, i < lines.length → parseKV (lines.getD i []) = some (k, v) →
      looksLikeIP v = true → looksLikePort k v = true →
      (⟨k, stripQuotes v, k, stripQuotes v, 1 + i⟩ : MatchRecord) ∈
        scanFileRows lines) := by
  refine ⟨fun k => scanFileAux_count lines 1 k, fun r => mem_scanFileAux r lines 1,
    ?_, ?_, ?_⟩
  · intro r hr
    obtain ⟨i, -, -, hne, hrec⟩ := (mem_scanFileAux r lines 1).mp hr
    rw [hrec]
    exact hne
  · intro i hi hblank r hr hln
    obtain ⟨j, hj, hnb, -, hrec⟩ := (mem_scanFileAux r lines 1).mp hr
    have hln2 : r.lineNumber = 1 + j := by rw [hrec]
    have hij : j = i := by omega
    subst hij
    exact hnb hblank
  · intro i k v hi hv hip hport
    have hkne : k ≠ [] := (parseKV_key_chars hv).1
    have hfields : scanLineFields (lines.getD i []) =
        (k, stripQuotes v, k, stripQuotes v) := by
      rw [scanLineFields, hv]
      dsimp only
      rw [if_pos hip, if_pos hport]
    apply (mem_scanFileAux _ lines 1).mpr
    refine ⟨i, hi, ?_, ?_, ?_⟩
    · intro hblank
      have hcb : isCommentOrBlank (lines.getD i []) = true := by
        show ((trimGo (lines.getD i [])).isEmpty || _ || _) = true
        rw [hblank]
        rfl
      have hnone := parseKV_none_of_commentOrBlank hcb
      rw [hv] at hnone
      exact absurd hnone (by simp)
    · intro hfe
      rw [fieldsEmpty, hfields] at hfe
      exact hkne hfe.1
    · rw [scanLineRec, hfields]

/-- Witness for `scan_oneRecordPerLine`: on the file `"   " / "a=1"` line 1
is blank and yields no record, and per-line record counts are at most one. -/
theorem scan_oneRecordPerLine_witness :
    ((scanFileRows ["   ".toList, "a=1".toList]).filter
        (fun r => r.lineNumber = 1)).length ≤ 1 ∧
    (∀ r ∈ scanFileRows ["   ".toList, "a=1".toList], r.lineNumber ≠ 1 + 0) :=
  ⟨(scan_oneRecordPerLine ["   ".toList, "a=1".toList]).1 1,
   fun r hr => (scan_oneRecordPerLine ["   ".toList, "a=1".toList]).2.2.2.1 0
     (by decide) (by decide) r hr⟩

/-- Counterexample to C2 as stated: the comment line `# see 10.0.0.1`
classifies as matched=false (`isCommentOrBlank` is true and `parseKV`
fails), yet the scan DOES report it, via the free-form IP fallback. -/
theorem scan_reportsUnmatched_cex :
    isCommentOrBlank ("# see 10.0.0.1".toList) = true ∧
    parseKV ("# see 10.0.0.1".toList) = none ∧
    scanFileRows [("# see 10.0.0.1".toList)] =
      [⟨[], "10.0.0.1".toList, [], [], 1⟩] :=
  ⟨by decide, by decide, by decide⟩

/-- C2 as amended: a matched=false line is never altered by the adapter
toggle; the scan reports such a line only when the free-form fallback
(`firstIP` / `findInlinePort`) yields a finding on it; and a
blank-after-trim line is never reported. -/
theorem unmatchedLine_amended :
    (∀ lines want i, i < (lines : List (List Char)).length →
      parseKV (lines.getD i []) = none →
      (flipAdapters lines want).lines.getD i [] = lines.getD i []) ∧
    (∀ line, parseKV line = none → ¬fieldsEmpty line →
      (firstIP line ≠ [] ∨ findInlinePort line ≠ none)) ∧
    (∀ lines i, i < (lines : List (List Char)).length →
      trimGo (lines.getD i []) = [] →
      ∀ r ∈ scanFileRows lines, r.lineNumber ≠ 1 + i) := by
  refine ⟨?_, ?_, ?_⟩
  · intro lines want i hi hnone
    rw [flipAdapters]
    apply flipLoop_untouched
    intro a _ idx hidx he
    subst he
    obtain ⟨-, hkey, -⟩ := buildIndex_some hidx
    obtain ⟨v, hv⟩ := lineKey_parse hkey
    rw [hnone] at hv
    exact absurd hv (by simp)
  · intro line hnone hne
    rcases hfp : findInlinePort line with _ | ⟨⟨pk, pv⟩⟩
    · left
      intro hip
      apply hne
      rw [fieldsEmpty, scanLineFields, hnone]
      dsimp only
      rw [hfp]
      exact ⟨rfl, hip, rfl, rfl⟩
    · right
      simp
  · intro lines i hi hblank r hr hln
    obtain ⟨j, hj, hnb, -, hrec⟩ := (mem_scanFileAux r lines 1).mp hr
    have hln2 : r.lineNumber = 1 + j := by rw [hrec]
    have hij : j = i := by omega
    subst hij
    exact hnb hblank

/-- Witness for `unmatchedLine_amended` on the comment line
`# see 10.0.0.1` (toggle leaves it intact; its scan record comes from the
fallback). -/
theorem unmatchedLine_amended_witness :
    (flipAdapters ["# see 10.0.0.1".toList] ["x".toList]).lines.getD 0 [] =
      ("# see 10.0.0.1".toList) ∧
    (firstIP ("# see 10.0.0.1".toList) ≠ [] ∨
      findInlinePort ("# see 10.0.0.1".toList) ≠ none) :=
  ⟨unmatchedLine_amended.1 ["# see 10.0.0.1".toList] ["x".toList] 0
    (by decide) (by decide),
   unmatchedLine_amended.2.1 ("# see 10.0.0.1".toList) (by decide) (by decide)⟩

/-- C10: the classifier's empty-value edge case.  `"key="` does not match
(the value capture needs one character) while `"key=   "` matches with a
value that trims to empty; consequently the toggle reports `key` as
`not found` for the former file and as a `non-binary value` for the
latter, leaving both files unchanged. -/
theorem classifier_emptyValue_edge :
    parseKV ("key=".toList) = none ∧
    parseKV ("key=   ".toList) = some ("key".toList, []) ∧
    flipAdapters ["key=".toList] ["key".toList] =
      ⟨["key=".toList], [], [("key".toList, "not found".toList)]⟩ ∧
    flipAdapters ["key=   ".toList] ["key".toList] =
      ⟨["key=   ".toList], [], [("key".toList, "non-binary value".toList)]⟩ :=
  ⟨by decide, by decide, by decide, by decide⟩

/-- Witness for `looksLikePort_spec`: instantiating the characterization at
`("server.port", "8080")`. -/
theorem looksLikePort_spec_witness :
    hasSubstr (toLowerStr ("server.port".toList)) ("port".toList) = true ∧
    2 ≤ (stripQuotes ("8080".toList)).length ∧
    (stripQuotes ("8080".toList)).length ≤ 5 ∧
    ∀ c ∈ stripQuotes ("8080".toList), isDigitCh c = true :=
  (looksLikePort_spec.1 ("server.port".toList) ("8080".toList)).mp (by decide)

/-- Witness for `looksLikeIP_spec`: instantiating the octet
characterization at the numeral `255`. -/
theorem looksLikeIP_spec_witness :
    ((octet ("255".toList)).any fun p => p.2.isEmpty) = true :=
  (looksLikeIP_spec.2.2.2.2.2 ("255".toList)).mpr
    ⟨by decide, by decide, by decide, by decide⟩

/-- Witness for `toggle_lastOccurrenceWins` on the duplicate-key file
`x=0 / x=1`: the earlier `x` line is untouched and the index points at the
later one. -/
theorem toggle_lastOccurrenceWins_witness :
    (0 < 1 ∧ 1 < (["x=0".toList, "x=1".toList] : List (List Char)).length) ∧
    ((flipAdapters ["x=0".toList, "x=1".toList] ["x".toList]).lines.getD 0 []
        = "x=0".toList ∧
      ∃ m, buildIndex ["x=0".toList, "x=1".toList] ("x".toList) = some m ∧
        1 ≤ m) :=
  ⟨⟨by decide, by decide⟩,
   toggle_lastOccurrenceWins ["x=0".toList, "x=1".toList] ["x".toList]
     ("x".toList) 0 1 [] (by decide) (by decide) (by decide) (by decide)⟩
